import Mathlib

/-!
# Corosync telegraf input: parsing and tallying

A shallow embedding of `plugins/inputs/corosync/corosync.go`.

Go strings and byte slices are sequences of bytes (`Bytes`).  The three
regular expressions of the source are values of a small pattern type that
covers exactly the constructs they use (literal bytes, greedy `c+`, greedy
`c*` and capturing groups `(c+)` over a character class `c`), matched by a
backtracking matcher with Go's leftmost-first preference.  All classes but
`.` are ASCII classes; `.` is "any character but newline", and since the
newline byte never occurs inside a multi-byte UTF-8 sequence and every
neighbour of a `.+` in the source patterns is an ASCII class, matching byte
by byte finds the same matches and captures as matching rune by rune.

Unsigned machine integers are natural numbers with explicit wrap-around.
-/

namespace Corosync

/-! ## Bytes and character classes -/

abbrev Bytes := List UInt8

/-- The UTF-8 bytes of a string literal. -/
def bs (s : String) : Bytes := s.data.flatMap String.utf8EncodeChar

/-- Go `len` of a string: its number of bytes, as a signed `int`. -/
def len (s : Bytes) : Int := (s.length : Int)

/-- Regexp class `\d`. -/
def isDigit (b : UInt8) : Bool := 48 ≤ b.toNat && b.toNat ≤ 57

/-- Regexp class `\w`: `[0-9A-Za-z_]`. -/
def isWord (b : UInt8) : Bool :=
  (48 ≤ b.toNat && b.toNat ≤ 57) || (65 ≤ b.toNat && b.toNat ≤ 90) ||
    (97 ≤ b.toNat && b.toNat ≤ 122) || b.toNat = 95

/-- Regexp class `\s`: `[\t\n\f\r ]`. -/
def isSpace (b : UInt8) : Bool :=
  b.toNat = 9 || b.toNat = 10 || b.toNat = 12 || b.toNat = 13 || b.toNat = 32

/-- Regexp class `.`: anything but the newline. -/
def isDot (b : UInt8) : Bool := b.toNat != 10

/-- Regexp class `[\w\n :]` of the Date capture. -/
def isDateChar (b : UInt8) : Bool :=
  isWord b || b.toNat = 10 || b.toNat = 32 || b.toNat = 58

/-- Regexp class `[\w\d\.]` of the Ring ID capture. -/
def isRingChar (b : UInt8) : Bool := isWord b || isDigit b || b.toNat = 46

/-! ## Runes: what `for _, char := range status` iterates over -/

/-- The rune `utf8.RuneError`, U+FFFD. -/
def RuneError : Nat := 0xFFFD

/-- Continuation-byte test with the accept range of the leading byte. -/
def inRange (lo hi : Nat) (b : UInt8) : Bool := lo ≤ b.toNat && b.toNat ≤ hi

/-- Go `utf8.DecodeRuneInString`: the first rune of `s` and its width in
bytes.  An invalid or truncated encoding decodes to `RuneError` of width 1. -/
def decodeRune : Bytes → Nat × Nat
  | [] => (RuneError, 0)
  | s0 :: t =>
    let b0 := s0.toNat
    if b0 < 0x80 then (b0, 1)
    else if b0 < 0xC2 || 0xF4 < b0 then (RuneError, 1)
    else
      let lo := if b0 = 0xE0 then 0xA0 else if b0 = 0xF0 then 0x90 else 0x80
      let hi := if b0 = 0xED then 0x9F else if b0 = 0xF4 then 0x8F else 0xBF
      match t with
      | [] => (RuneError, 1)
      | s1 :: t1 =>
        if !inRange lo hi s1 then (RuneError, 1)
        else if b0 < 0xE0 then ((b0 % 32) * 64 + s1.toNat % 64, 2)
        else
          match t1 with
          | [] => (RuneError, 1)
          | s2 :: t2 =>
            if !inRange 0x80 0xBF s2 then (RuneError, 1)
            else if b0 < 0xF0 then
              ((b0 % 16) * 4096 + (s1.toNat % 64) * 64 + s2.toNat % 64, 3)
            else
              match t2 with
              | [] => (RuneError, 1)
              | s3 :: _ =>
                if !inRange 0x80 0xBF s3 then (RuneError, 1)
                else
                  ((b0 % 8) * 262144 + (s1.toNat % 64) * 4096 +
                    (s2.toNat % 64) * 64 + s3.toNat % 64, 4)

/-- The runes of a string in order, skipping the bytes the previous rune
covered (`skip` counts them). -/
def runesAux : Nat → Bytes → List Nat
  | _, [] => []
  | skip + 1, _ :: t => runesAux skip t
  | 0, b :: t => (decodeRune (b :: t)).1 :: runesAux ((decodeRune (b :: t)).2 - 1) t

/-- The sequence of characters a `range` loop over the string visits. -/
def runes (s : Bytes) : List Nat := runesAux 0 s

/-! ## countLinks -/

/-- The statement `result[i] += 1` on a `[5]uint32`. -/
def incr (result : List Nat) (i : Nat) : List Nat :=
  result.set i ((result.getD i 0 + 1) % 2 ^ 32)

/-- One iteration of the loop body of `countLinks`. -/
def countLinksStep (result : List Nat) (char : Nat) : List Nat :=
  if char = 51 then incr result 0        -- '3': active
  else if char = 50 then incr result 1   -- '2': connected
  else if char = 49 then incr result 2   -- '1': enabled
  else if char = 63 then incr result 3   -- '?': unknown
  else if char = 110 then result         -- 'n': localhost
  else incr result 4

/-- Source function `countLinks`: the zero array updated once per rune. -/
def countLinks (status : Bytes) : List Nat :=
  (runes status).foldl countLinksStep [0, 0, 0, 0, 0]

/-- A rune that is none of '3', '2', '1', '?', 'n'. -/
def isOtherChar (r : Nat) : Bool :=
  r != 51 && r != 50 && r != 49 && r != 63 && r != 110

/-! ## Errors, strconv and fmt -/

/-- Go error values: `errors.New`, `*strconv.NumError`, and an error wrapped
by `fmt.Errorf(msg + ": %w", err)`. -/
inductive Error
  | new (msg : String)
  | numError (fn : String) (num : Bytes) (err : Error)
  | wrap (msg : String) (err : Error)
  deriving DecidableEq

/-- The value `strconv.ErrSyntax`. -/
def ErrSyntax : Error := .new "invalid syntax"

/-- The value `strconv.ErrRange`. -/
def ErrRange : Error := .new "value out of range"

/-- The digit loop of `strconv.ParseUint` in base 10: `n` is the value read
so far (a `uint64`), `maxVal` is `1<<bitSize - 1`; the result is `none` on a
syntax error, `some none` on a range error. -/
def parseUintLoop (maxVal : Nat) : Nat → Bytes → Option (Option Nat)
  | n, [] => some (some n)
  | n, c :: t =>
    if !isDigit c then none
    else if n ≥ (2 ^ 64 - 1) / 10 + 1 then some none
    else
      let n1 := (n * 10 + (c.toNat - 48)) % 2 ^ 64
      if n1 < n * 10 || n1 > maxVal then some none
      else parseUintLoop maxVal n1 t

/-- Go `strconv.ParseUint(s, 10, bitSize)`: the value, or the `NumError` that
wraps `ErrSyntax` (empty text, a byte that is no digit) or `ErrRange` (the
value does not fit `bitSize` bits).  The callers convert the value with
`uint(...)` only after a 32-bit parse, which changes nothing. -/
def ParseUint (s : Bytes) (bitSize : Nat) : Except Error Nat :=
  if s = [] then .error (.numError "ParseUint" s ErrSyntax)
  else
    match parseUintLoop (2 ^ bitSize - 1) 0 s with
    | none => .error (.numError "ParseUint" s ErrSyntax)
    | some none => .error (.numError "ParseUint" s ErrRange)
    | some (some n) => .ok n

/-- Digits of `n`, most significant first, in front of `acc`. -/
def decimalCore : Nat → Nat → Bytes → Bytes
  | 0, _, acc => acc
  | fuel + 1, n, acc =>
    if n / 10 = 0 then UInt8.ofNat (48 + n % 10) :: acc
    else decimalCore fuel (n / 10) (UInt8.ofNat (48 + n % 10) :: acc)

/-- An unsigned integer printed in decimal, as by `fmt.Sprintf("%d", n)` and
`fmt.Sprint(n)`. -/
def decimal (n : Nat) : Bytes := decimalCore (n + 1) n []

/-- Go `strings.Split(s, sep)` for a one-byte separator: the pieces of `s`
between the separators; `cur` is the piece being read. -/
def splitAux (sep : UInt8) : Bytes → Bytes → List Bytes
  | cur, [] => [cur]
  | cur, b :: t => if b = sep then cur :: splitAux sep [] t else splitAux sep (cur ++ [b]) t

/-- Go `strings.Split(s, " ")`. -/
def Split (s : Bytes) (sep : UInt8) : List Bytes := splitAux sep [] s

/-! ## Regular expressions -/

/-- One element of a pattern: a literal byte, a greedy `c+`, a greedy `c*`,
or a capturing group `(c+)` (named by `(?P<name>...)`, else with name ""). -/
inductive Item
  | lit (b : UInt8)
  | plus (p : UInt8 → Bool)
  | star (p : UInt8 → Bool)
  | cap (name : String) (p : UInt8 → Bool)

/-- A literal string as a pattern. -/
def lits (s : String) : List Item := (bs s).map Item.lit

/-- Greedy repetition: consume one more byte of class `p` if possible, and
fall back to the continuation `k` at the current position when everything
after the longer repetition fails.  `acc` is the text consumed so far. -/
def starK {R : Type} (p : UInt8 → Bool) (k : Bytes → Bytes → Option R) : Bytes → Bytes → Option R
  | acc, [] => k acc []
  | acc, b :: t =>
    if p b then
      match starK p k (acc ++ [b]) t with
      | some r => some r
      | none => k acc (b :: t)
    else k acc (b :: t)

/-- Greedy repetition, at least once. -/
def plusK {R : Type} (p : UInt8 → Bool) (k : Bytes → Bytes → Option R) : Bytes → Option R
  | [] => none
  | b :: t => if p b then starK p k [b] t else none

/-- Backtracking match of a pattern at the start of the input, with the
leftmost-first preference of Go's `regexp`: the captures in order and the
unconsumed rest of the input. -/
def matchHere : List Item → Bytes → Option (List Bytes × Bytes)
  | [], s => some ([], s)
  | .lit c :: r, s =>
    match s with
    | [] => none
    | b :: t => if b = c then matchHere r t else none
  | .plus p :: r, s => plusK p (fun _ s' => matchHere r s') s
  | .star p :: r, s => starK p (fun _ s' => matchHere r s') [] s
  | .cap _ p :: r, s =>
    plusK p (fun w s' => (matchHere r s').map (fun x => (w :: x.1, x.2))) s

/-- The submatch slice of a match at the start of `s`: the whole match
followed by the captures. -/
def submatchHere (re : List Item) (s : Bytes) : Option (List Bytes) :=
  (matchHere re s).map (fun x => s.take (s.length - x.2.length) :: x.1)

/-- Successive non-overlapping matches, scanning left to right; `skip` is the
number of bytes still covered by the previous match. -/
def findAllAux (re : List Item) : Nat → Bytes → List (List Bytes)
  | 0, [] =>
    match submatchHere re [] with
    | some m => [m]
    | none => []
  | _ + 1, [] => []
  | skip + 1, _ :: t => findAllAux re skip t
  | 0, b :: t =>
    match submatchHere re (b :: t) with
    | some m => m :: findAllAux re ((m.headD []).length - 1) t
    | none => findAllAux re 0 t

/-- Go `re.FindAllSubmatch(output, -1)`; the result `nil` is the empty list.
(The patterns of this program start with a literal, so no match is empty.) -/
def FindAllSubmatch (re : List Item) (output : Bytes) : List (List Bytes) :=
  findAllAux re 0 output

/-- The names of the capturing groups of a pattern, in order. -/
def groupNames : List Item → List String
  | [] => []
  | .cap name _ :: r => name :: groupNames r
  | _ :: r => groupNames r

/-- Go `re.SubexpNames()`: the empty name of the whole match, then the name
of each capturing group. -/
def SubexpNames (re : List Item) : List String := "" :: groupNames re

/-- The pattern of `parseQuorumStatus`:
`Date:\s+([\w\n :]+)\nQuorum provider:\s+(\w+)\nNodes:\s+(\d+)\nNode ID:\s+(\d+)\nRing ID:\s+([\w\d\.]+)\nQuorate:\s+(\w+)`. -/
def quorumRE : List Item :=
  lits "Date:" ++ [.plus isSpace, .cap "" isDateChar] ++
  lits "\nQuorum provider:" ++ [.plus isSpace, .cap "" isWord] ++
  lits "\nNodes:" ++ [.plus isSpace, .cap "" isDigit] ++
  lits "\nNode ID:" ++ [.plus isSpace, .cap "" isDigit] ++
  lits "\nRing ID:" ++ [.plus isSpace, .cap "" isRingChar] ++
  lits "\nQuorate:" ++ [.plus isSpace, .cap "" isWord]

/-- The pattern of `parseRingStatus`:
`LINK ID (?P<id>\d+) (?P<proto>\w+)\s+addr\s+= (?P<address>.+)\s+status\s+= (?P<status>.+)`. -/
def ringsRE : List Item :=
  lits "LINK ID " ++ [.cap "id" isDigit] ++ lits " " ++ [.cap "proto" isWord, .plus isSpace] ++
  lits "addr" ++ [.plus isSpace] ++ lits "= " ++ [.cap "address" isDot, .plus isSpace] ++
  lits "status" ++ [.plus isSpace] ++ lits "= " ++ [.cap "status" isDot]

/-- The pattern of `parseVotequorumInfo`:
`Expected votes:\s+(\d+)\s*\nHighest expected:\s+(\d+)\s*\nTotal votes:\s+(\d+)\s*\nQuorum:\s+(\d+)\s*\nFlags:\s+([\w]+)`. -/
def voteqorumInfoRE : List Item :=
  lits "Expected votes:" ++ [.plus isSpace, .cap "" isDigit, .star isSpace] ++
  lits "\nHighest expected:" ++ [.plus isSpace, .cap "" isDigit, .star isSpace] ++
  lits "\nTotal votes:" ++ [.plus isSpace, .cap "" isDigit, .star isSpace] ++
  lits "\nQuorum:" ++ [.plus isSpace, .cap "" isDigit, .star isSpace] ++
  lits "\nFlags:" ++ [.plus isSpace, .cap "" isWord]

/-! ## The status records and the three parsers -/

structure ringStatus where
  address : Bytes
  status : Bytes
  protocol : Bytes
  ringId : Nat
  linkCount : List Nat
  deriving DecidableEq

structure votequorumStatus where
  totalVotes : Nat
  expectedVotes : Nat
  highestExpected : Nat
  quorum : Nat
  flags : List Bytes
  deriving DecidableEq

structure quorumStatus where
  nodeId : Nat
  ringId : Bytes
  isQuorate : Bool
  totalNodes : Nat
  deriving DecidableEq

structure nodeStatus where
  quorum : quorumStatus
  votequorum : votequorumStatus
  rings : List ringStatus
  deriving DecidableEq

/-- How a method call ends: it returns, leaving the receiver in state `s`
with the error value `err` (`none` is `nil`), or it panics at run time
(an index out of range). -/
inductive Outcome (σ : Type)
  | ret (s : σ) (err : Option Error)
  | panic
  deriving DecidableEq

/-- Source method `quorumStatus.parseQuorumStatus`. -/
def parseQuorumStatus (s : quorumStatus) (output : Bytes) : Outcome quorumStatus :=
  match FindAllSubmatch quorumRE output with
  | [] => .ret s (some (.new "corosync-quorumtool returned incorrect data"))
  | m0 :: _ =>
    match m0[3]? with
    | none => .panic
    | some c3 =>
      match ParseUint c3 32 with
      | .error err => .ret s (some (.wrap "unable to parse total nodes into uint" err))
      | .ok total =>
        let s1 := { s with totalNodes := total }
        match m0[4]? with
        | none => .panic
        | some c4 =>
          match ParseUint c4 32 with
          | .error err => .ret s1 (some (.wrap "unable to parse Node ID" err))
          | .ok nodeId =>
            let s2 := { s1 with nodeId := nodeId }
            match m0[5]? with
            | none => .panic
            | some c5 =>
              let s3 := { s2 with ringId := c5 }
              match m0[6]? with
              | none => .panic
              | some c6 =>
                if c6 = bs "Yes" then .ret { s3 with isQuorate := true } none
                else if c6 = bs "No" then .ret { s3 with isQuorate := false } none
                else .ret s3 (some (.new "unable to parse quorum status"))

/-- Source function `extractCapturedGroups`: the map from group name to
captured text, as an association list; `none` is an index panic. -/
def extractCapturedGroups (names : List String) (m : List Bytes) : Option (List (String × Bytes)) :=
  (names.enum).foldl
    (fun acc x =>
      match acc with
      | none => none
      | some namedMatches =>
        if x.1 ≠ 0 ∧ x.2 ≠ "" then
          match m[x.1]? with
          | none => none
          | some v => some (namedMatches.filter (fun e => e.1 ≠ x.2) ++ [(x.2, v)])
        else some namedMatches)
    (some [])

/-- Map lookup `namedMatches[name]`: the empty string for a missing key. -/
def lookup (namedMatches : List (String × Bytes)) (name : String) : Bytes :=
  match namedMatches.find? (fun e => e.1 = name) with
  | some e => e.2
  | none => []

/-- The loop of `parseRingStatus` over the matches. -/
def parseRingStatusLoop (s : nodeStatus) : List (List Bytes) → Outcome nodeStatus
  | [] => .ret s none
  | m :: ms =>
    match extractCapturedGroups (SubexpNames ringsRE) m with
    | none => .panic
    | some namedMatches =>
      match ParseUint (lookup namedMatches "id") 64 with
      | .error err => .ret s (some (.wrap "unable to parse Ring ID" err))
      | .ok id =>
        parseRingStatusLoop
          { s with rings := s.rings ++
              [{ ringId := id,
                 protocol := lookup namedMatches "proto",
                 address := lookup namedMatches "address",
                 status := lookup namedMatches "status",
                 linkCount := countLinks (lookup namedMatches "status") }] }
          ms

/-- Source method `nodeStatus.parseRingStatus`. -/
def parseRingStatus (s : nodeStatus) (output : Bytes) : Outcome nodeStatus :=
  parseRingStatusLoop s (FindAllSubmatch ringsRE output)

/-- Source method `votequorumStatus.parseVotequorumInfo`. -/
def parseVotequorumInfo (s : votequorumStatus) (output : Bytes) : Outcome votequorumStatus :=
  match (FindAllSubmatch voteqorumInfoRE output)[0]? with
  | none => .panic
  | some m0 =>
    match m0[1]? with
    | none => .panic
    | some c1 =>
      match ParseUint c1 32 with
      | .error err => .ret s (some (.wrap "unable to parse expected votes into uint" err))
      | .ok expected =>
        match m0[2]? with
        | none => .panic
        | some c2 =>
          match ParseUint c2 32 with
          | .error err => .ret s (some (.wrap "unable to parse highest expected into uint" err))
          | .ok highest =>
            match m0[3]? with
            | none => .panic
            | some c3 =>
              match ParseUint c3 32 with
              | .error err => .ret s (some (.wrap "unable to parse total votes into uint" err))
              | .ok total =>
                match m0[4]? with
                | none => .panic
                | some c4 =>
                  match ParseUint c4 32 with
                  | .error err => .ret s (some (.wrap "unable to parse quorum into uint" err))
                  | .ok quorum =>
                    match m0[5]? with
                    | none => .panic
                    | some c5 =>
                      .ret { expectedVotes := expected, highestExpected := highest,
                             totalVotes := total, quorum := quorum, flags := Split c5 32 } none

/-! ## Gather -/

/-- A field value handed to the accumulator. -/
inductive Value
  | bool (b : Bool)
  | uint (n : Nat)
  | str (s : Bytes)
  | int (i : Int)
  deriving DecidableEq

/-- One metric point added by `acc.AddGauge`. -/
structure Point where
  measurement : String
  fields : List (String × Value)
  tags : List (String × Bytes)
  deriving DecidableEq

/-- The `corosync_quorum` gauge of `Gather`. -/
def quorumGauge (status : nodeStatus) : Point :=
  { measurement := "corosync_quorum",
    fields :=
      [("is_quorate", .bool status.quorum.isQuorate),
       ("total_nodes", .uint status.quorum.totalNodes),
       ("ring_id", .str status.quorum.ringId),
       ("total_votes", .uint status.votequorum.totalVotes),
       ("expected_votes", .uint status.votequorum.expectedVotes),
       ("highest_expected", .uint status.votequorum.highestExpected),
       ("quorum", .uint status.votequorum.quorum)],
    tags := [("node_id", decimal status.quorum.nodeId)] }

/-- The `corosync_rings` gauge `Gather` adds for one ring. -/
def ringGauge (ring : ringStatus) : Point :=
  { measurement := "corosync_rings",
    fields :=
      [("active", .uint (ring.linkCount.getD 0 0)),
       ("connected", .uint (ring.linkCount.getD 1 0)),
       ("enabled", .uint (ring.linkCount.getD 2 0)),
       ("unknown", .uint (ring.linkCount.getD 3 0)),
       ("undefined", .uint (ring.linkCount.getD 4 0)),
       ("total", .int (len ring.status - 1))],
    tags := [("ring_id", decimal ring.ringId)] }

/-- Source method `Corosync.Gather`, as a function of the results of the two
bounded process runs (output and error of `combinedOutputTimeout`); `cmd` is
the quoted rendering of the quorum tool command, and the state is the list
of points the accumulator holds. -/
def Gather (cmd : String) (quorumToolRun cfgToolRun : Bytes × Option Error) (acc : List Point) :
    Outcome (List Point) :=
  let status : nodeStatus :=
    { quorum := { nodeId := 0, ringId := [], isQuorate := false, totalNodes := 0 },
      votequorum :=
        { totalVotes := 0, expectedVotes := 0, highestExpected := 0, quorum := 0, flags := [] },
      rings := [] }
  match quorumToolRun.2 with
  | some err => .ret acc (some (.wrap ("command " ++ cmd ++ " failed") err))
  | none =>
    match cfgToolRun.2 with
    | some err => .ret acc (some (.wrap "corosync-cfgtool encountered an error" err))
    | none =>
      match parseQuorumStatus status.quorum quorumToolRun.1 with
      | .panic => .panic
      | .ret _ (some err) =>
        .ret acc (some (.wrap "unable to parse corosync-quorumtool Quorum output" err))
      | .ret q none =>
        match parseVotequorumInfo status.votequorum quorumToolRun.1 with
        | .panic => .panic
        | .ret _ (some err) =>
          .ret acc (some (.wrap "unable to parse corosync-quorumtool Votequorum output" err))
        | .ret v none =>
          match parseRingStatus { status with quorum := q, votequorum := v } cfgToolRun.1 with
          | .panic => .panic
          | .ret _ (some err) =>
            .ret acc (some (.wrap "unable to parse corosync-cfgtool output" err))
          | .ret st none => .ret (acc ++ [quorumGauge st] ++ st.rings.map ringGauge) none

/-! ## Specification vocabulary -/

/-- The texts one pattern element matches. -/
def Item.Matches : Item → Bytes → Prop
  | .lit b, w => w = [b]
  | .plus p, w => w ≠ [] ∧ ∀ b ∈ w, p b = true
  | .star p, w => ∀ b ∈ w, p b = true
  | .cap _ p, w => w ≠ [] ∧ ∀ b ∈ w, p b = true

/-- The language of a pattern: `w` is the concatenation of texts matched by
its elements in order. -/
def Matches : List Item → Bytes → Prop
  | [], w => w = []
  | i :: r, w => ∃ u v, w = u ++ v ∧ i.Matches u ∧ Matches r v

/-- The input contains a match of the pattern: some stretch of it is in the
language of the pattern. -/
def HasMatch (re : List Item) (input : Bytes) : Prop :=
  ∃ pre w post, input = pre ++ w ++ post ∧ Matches re w

/-- The character classes of the capturing groups of a pattern, in order. -/
def capClasses : List Item → List (UInt8 → Bool)
  | [] => []
  | .cap _ p :: r => p :: capClasses r
  | _ :: r => capClasses r

/-- What a capture list looks like: one non-empty text per capturing group,
made of characters of the class of the group. -/
def CapsOk (caps : List Bytes) (classes : List (UInt8 → Bool)) : Prop :=
  List.Forall₂ (fun c p => c ≠ [] ∧ ∀ b ∈ c, p b = true) caps classes

/-- A well-formed match of the LINK ID block: five submatches, the id a
non-empty digit string. -/
def RingMatch (m : List Bytes) : Prop :=
  ∃ whole a b c d, m = [whole, a, b, c, d] ∧ a ≠ [] ∧ ∀ x ∈ a, isDigit x = true

/-- A repetition of class `p` cannot go on into `s`: `s` is empty or starts
with a byte outside the class. -/
def stopsAt (p : UInt8 → Bool) (s : Bytes) : Bool :=
  match s with
  | [] => true
  | c :: _ => !p c

/-- The pattern `w` occurs nowhere in `t`. -/
def NoOcc (w t : Bytes) : Prop := ∀ v, v <:+ t → ¬ w <+: v

/-- The number a string of decimal digits denotes. -/
def digitsValue (s : Bytes) : Nat := s.foldl (fun n c => n * 10 + (c.toNat - 48)) 0

/-- The text of capture group `i` of the first match of the pattern in the
output, as in `matches[0][i]` (the empty text when there is none). -/
def firstCapture (re : List Item) (output : Bytes) (i : Nat) : Bytes :=
  ((FindAllSubmatch re output).headD []).getD i []

/-- The ring record that one match of the LINK ID block stands for: the
decimal value of the id capture, the protocol, address and status captures,
and the tally of the status. -/
def ringOf (m : List Bytes) : ringStatus :=
  { ringId := digitsValue (m.getD 1 []),
    protocol := m.getD 2 [],
    address := m.getD 3 [],
    status := m.getD 4 [],
    linkCount := countLinks (m.getD 4 []) }

/-- A fresh quorum record, every field at its zero value. -/
def quorumStatus.zero : quorumStatus :=
  { nodeId := 0, ringId := [], isQuorate := false, totalNodes := 0 }

/-- A fresh vote-tally record. -/
def votequorumStatus.zero : votequorumStatus :=
  { totalVotes := 0, expectedVotes := 0, highestExpected := 0, quorum := 0, flags := [] }

/-- A fresh node status. -/
def nodeStatus.zero : nodeStatus :=
  { quorum := quorumStatus.zero, votequorum := votequorumStatus.zero, rings := [] }

/-- Output of `corosync-quorumtool` on a quorate two-node cluster. -/
def sampleQuorate : Bytes :=
  bs ("Quorum information\n------------------\n" ++
      "Date:             Sun Sep 18 13:10:11 2022\n" ++
      "Quorum provider:  corosync_votequorum\n" ++
      "Nodes:            2\n" ++
      "Node ID:          1\n" ++
      "Ring ID:          1.1f\n" ++
      "Quorate:          Yes\n\n" ++
      "Votequorum information\n----------------------\n" ++
      "Expected votes:   2\n" ++
      "Highest expected: 2\n" ++
      "Total votes:      2\n" ++
      "Quorum:           1  \n" ++
      "Flags:            Quorate WaitForAll \n\n" ++
      "Membership information\n")

/-- Output of `corosync-quorumtool` on a node that lost quorum: the Quorum
line carries the words "Activity blocked". -/
def sampleInquorate : Bytes :=
  bs ("Quorum information\n------------------\n" ++
      "Date:             Sun Sep 18 13:12:40 2022\n" ++
      "Quorum provider:  corosync_votequorum\n" ++
      "Nodes:            1\n" ++
      "Node ID:          1\n" ++
      "Ring ID:          1.23\n" ++
      "Quorate:          No\n\n" ++
      "Votequorum information\n----------------------\n" ++
      "Expected votes:   2\n" ++
      "Highest expected: 2\n" ++
      "Total votes:      1\n" ++
      "Quorum:           2 Activity blocked\n" ++
      "Flags:            \n\n" ++
      "Membership information\n")

/-- A quorum block whose Quorate line carries the token "Maybe". -/
def sampleMaybe : Bytes :=
  bs ("Date:             Sun Sep 18 13:10:11 2022\n" ++
      "Quorum provider:  corosync_votequorum\n" ++
      "Nodes:            2\n" ++
      "Node ID:          1\n" ++
      "Ring ID:          1.1f\n" ++
      "Quorate:          Maybe\n")

/-- Output of `corosync-cfgtool -sb` with one link whose id is 2^64. -/
def sampleBigLinkId : Bytes :=
  bs "LINK ID 18446744073709551616 udp\n\taddr\t= 10.0.0.1\n\tstatus\t= n3\n"

/-- A run of `k` spaces, the padding between a label and its value. -/
def pad (k : Nat) : Bytes := List.replicate k 32

/-- The quorum block as `corosync-quorumtool` lays it out: the labelled lines
Date, Quorum provider, Nodes, Node ID, Ring ID and Quorate, the two numbers
in decimal. -/
def quorumText (date provider : Bytes) (nodes nodeId : Nat) (ringId quorate : Bytes) : Bytes :=
  bs "Date:" ++ pad 13 ++ date ++
  bs "\nQuorum provider:" ++ pad 2 ++ provider ++
  bs "\nNodes:" ++ pad 12 ++ decimal nodes ++
  bs "\nNode ID:" ++ pad 10 ++ decimal nodeId ++
  bs "\nRing ID:" ++ pad 10 ++ ringId ++
  bs "\nQuorate:" ++ pad 10 ++ quorate ++ bs "\n"

/-- The vote-tally block as `corosync-quorumtool` lays it out: the labelled
lines Expected votes, Highest expected, Total votes, Quorum and Flags, the
four numbers in decimal. -/
def voteText (expected highest total quorum : Nat) (flag : Bytes) : Bytes :=
  bs "Expected votes:" ++ pad 3 ++ decimal expected ++
  bs "\nHighest expected:" ++ pad 1 ++ decimal highest ++
  bs "\nTotal votes:" ++ pad 6 ++ decimal total ++
  bs "\nQuorum:" ++ pad 11 ++ decimal quorum ++
  bs "\nFlags:" ++ pad 12 ++ flag ++ bs "\n"


/-- Some line of the output starts with `label`: the label occurs at the very
start of the output or right after a newline. -/
def HasLine (label output : Bytes) : Prop :=
  ∃ pre post, output = pre ++ label ++ post ∧ (pre = [] ∨ pre.getLast? = some 10)

/-- A scan that finds a line starting with `label`; `atStart` tells whether
the current position begins a line. -/
def hasLineAux (label : Bytes) : Bool → Bytes → Bool
  | atStart, [] => atStart && label.isPrefixOf []
  | atStart, b :: t => (atStart && label.isPrefixOf (b :: t)) || hasLineAux label (b == 10) t

/-- The matches `ms` are the successive non-overlapping matches of the
pattern in the input, in order of appearance: before the first match no
match starts, the first match is a non-empty text of the language of the
pattern with one well-formed capture per group, the other matches lie in
what follows it in the same way, and after the last one the input holds no
match. -/
inductive InOrder (re : List Item) : List (List Bytes) → Bytes → Prop
  | done (s : Bytes) : ¬ HasMatch re s → InOrder re [] s
  | next (gap whole rest : Bytes) (caps : List Bytes) (ms : List (List Bytes)) :
      (∀ g1 g2, gap = g1 ++ g2 → g2 ≠ [] →
        ¬ ∃ w post, g2 ++ (whole ++ rest) = w ++ post ∧ Matches re w) →
      Matches re whole → whole ≠ [] → CapsOk caps (capClasses re) →
      InOrder re ms rest → InOrder re ((whole :: caps) :: ms) (gap ++ (whole ++ rest))

/-- Output of `corosync-cfgtool -sb` on a node with two links. -/
def sampleLinks : Bytes :=
  bs ("Local node ID 1, transport knet\n" ++
      "LINK ID 0 udp\n\taddr\t= 10.0.0.1\n\tstatus\t= n3\n" ++
      "LINK ID 1 udp\n\taddr\t= 10.0.1.1\n\tstatus\t= 31?n2\n")

/-- Output of `corosync-cfgtool -sb` whose second link has the id 2^64. -/
def sampleLinksBigSecond : Bytes :=
  bs ("Local node ID 1, transport knet\n" ++
      "LINK ID 0 udp\n\taddr\t= 10.0.0.1\n\tstatus\t= n3\n" ++
      "LINK ID 18446744073709551616 udp\n\taddr\t= 10.0.1.1\n\tstatus\t= 31?n2\n")

/-- A quorum block without the Ring ID line. -/
def sampleNoRingId : Bytes :=
  bs ("Date:             Sun Sep 18 13:10:11 2022\n" ++
      "Quorum provider:  corosync_votequorum\n" ++
      "Nodes:            2\n" ++
      "Node ID:          1\n" ++
      "Quorate:          Yes\n")

/-- A quorum block whose Nodes value is 2^32 and whose Node ID value fits. -/
def sampleManyNodes : Bytes :=
  bs ("Date:             Sun Sep 18 13:10:11 2022\n" ++
      "Quorum provider:  corosync_votequorum\n" ++
      "Nodes:            4294967296\n" ++
      "Node ID:          1\n" ++
      "Ring ID:          1.1f\n" ++
      "Quorate:          Yes\n")

/-- Output of `corosync-quorumtool` with a good quorum block and a vote-tally
block whose Total votes value is 2^32. -/
def sampleManyVotes : Bytes :=
  bs ("Date:             Sun Sep 18 13:10:11 2022\n" ++
      "Quorum provider:  corosync_votequorum\n" ++
      "Nodes:            2\n" ++
      "Node ID:          1\n" ++
      "Ring ID:          1.1f\n" ++
      "Quorate:          Yes\n\n" ++
      "Expected votes:   2\n" ++
      "Highest expected: 2\n" ++
      "Total votes:      4294967296\n" ++
      "Quorum:           1  \n" ++
      "Flags:            Quorate \n")

/-! ## Facts about runes and the tally -/

theorem runesAux_ascii (s : Bytes) (h : ∀ b ∈ s, b.toNat < 128) :
    runesAux 0 s = s.map UInt8.toNat := by
  induction s with
  | nil => rfl
  | cons b t ih =>
    have hb : b.toNat < 128 := h b (List.mem_cons_self _ _)
    have ht : ∀ c ∈ t, c.toNat < 128 := fun c hc => h c (List.mem_cons_of_mem _ hc)
    simp [runesAux, decodeRune, hb, ih ht]

theorem runes_replicate (n : Nat) (b : UInt8) (h : b.toNat < 128) :
    runes (List.replicate n b) = List.replicate n b.toNat := by
  unfold runes
  rw [runesAux_ascii _ (fun c hc => by rw [List.eq_of_mem_replicate hc]; exact h)]
  simp

/-- One loop iteration on an array of five reduced counters. -/
theorem countLinksStep_mod (a0 a1 a2 a3 a4 r : Nat) :
    countLinksStep [a0 % 2 ^ 32, a1 % 2 ^ 32, a2 % 2 ^ 32, a3 % 2 ^ 32, a4 % 2 ^ 32] r =
      [(a0 + [r].count 51) % 2 ^ 32, (a1 + [r].count 50) % 2 ^ 32, (a2 + [r].count 49) % 2 ^ 32,
        (a3 + [r].count 63) % 2 ^ 32, (a4 + [r].countP isOtherChar) % 2 ^ 32] := by
  by_cases h3 : r = 51
  · subst h3; simp [countLinksStep, incr, isOtherChar]
  by_cases h2 : r = 50
  · subst h2; simp [countLinksStep, incr, isOtherChar]
  by_cases h1 : r = 49
  · subst h1; simp [countLinksStep, incr, isOtherChar]
  by_cases hq : r = 63
  · subst hq; simp [countLinksStep, incr, isOtherChar]
  by_cases hn : r = 110
  · subst hn; simp [countLinksStep, incr, isOtherChar]
  have e3 : (r == 51) = false := by simpa using h3
  have e2 : (r == 50) = false := by simpa using h2
  have e1 : (r == 49) = false := by simpa using h1
  have eq : (r == 63) = false := by simpa using hq
  simp [countLinksStep, incr, isOtherChar, h3, h2, h1, hq, hn, List.count_cons, e3, e2, e1, eq]

/-- The loop of `countLinks` from any starting array, in closed form. -/
theorem foldl_countLinksStep (rs : List Nat) (a0 a1 a2 a3 a4 : Nat) :
    rs.foldl countLinksStep [a0 % 2 ^ 32, a1 % 2 ^ 32, a2 % 2 ^ 32, a3 % 2 ^ 32, a4 % 2 ^ 32] =
      [(a0 + rs.count 51) % 2 ^ 32, (a1 + rs.count 50) % 2 ^ 32, (a2 + rs.count 49) % 2 ^ 32,
        (a3 + rs.count 63) % 2 ^ 32, (a4 + rs.countP isOtherChar) % 2 ^ 32] := by
  induction rs generalizing a0 a1 a2 a3 a4 with
  | nil => simp
  | cons r t ih =>
    rw [List.foldl_cons, countLinksStep_mod, ih]
    have c1 : ∀ x : Nat, (r :: t).count x = [r].count x + t.count x := fun x => by
      rw [← List.count_append]; rfl
    have c2 : (r :: t).countP isOtherChar = [r].countP isOtherChar + t.countP isOtherChar := by
      rw [← List.countP_append]; rfl
    rw [c1, c1, c1, c1, c2]
    simp only [Nat.add_assoc]

/-- Closed form of `countLinks`: every slot is a character count modulo 2^32. -/
theorem countLinks_closed (s : Bytes) :
    countLinks s =
      [(runes s).count 51 % 2 ^ 32, (runes s).count 50 % 2 ^ 32, (runes s).count 49 % 2 ^ 32,
        (runes s).count 63 % 2 ^ 32, (runes s).countP isOtherChar % 2 ^ 32] := by
  have h := foldl_countLinksStep (runes s) 0 0 0 0 0
  simpa [countLinks] using h

/-- C1 (amended): for every status string, `countLinks` returns the five-slot
tally whose slots are, modulo 2^32 (the counters are `uint32`), the numbers of
'3', '2', '1' and '?' characters and of characters that are none of '3', '2',
'1', '?', 'n'; 'n' adds to no slot and no input is rejected. -/
theorem countLinks_tally (s : Bytes) :
    countLinks s =
      [(runes s).count 51 % 2 ^ 32, (runes s).count 50 % 2 ^ 32, (runes s).count 49 % 2 ^ 32,
        (runes s).count 63 % 2 ^ 32, (runes s).countP isOtherChar % 2 ^ 32] :=
  countLinks_closed s

/-- C1 (as stated) fails: on a status string of 2^32 characters '3' the
active slot is 0, not the number of '3' characters. -/
theorem countLinks_active_wraps :
    (countLinks (List.replicate 4294967296 51)).getD 0 0 = 0 ∧
      (runes (List.replicate 4294967296 51)).count 51 = 4294967296 := by
  rw [countLinks_closed, runes_replicate _ _ (by decide)]
  have h : (51 : UInt8).toNat = 51 := by decide
  rw [h, List.count_replicate_self]
  exact ⟨by decide, rfl⟩

/-- C2 (amended): for the status string "31?n2" the link tally is
[active:1, connected:1, enabled:1, unknown:1, otherUndefined:0] and the
emitted total is 5 - 1 = 4. -/
theorem tally_of_31qn2 :
    countLinks (bs "31?n2") = [1, 1, 1, 1, 0] ∧
      (ringGauge { address := bs "10.0.0.1", status := bs "31?n2", protocol := bs "udp",
                   ringId := 0, linkCount := countLinks (bs "31?n2") }).fields =
        [("active", .uint 1), ("connected", .uint 1), ("enabled", .uint 1),
         ("unknown", .uint 1), ("undefined", .uint 0), ("total", .int 4)] := by
  decide

/-- C2 (as stated) fails: the enabled slot for "31?n2" is 1, so the tally is
not [1, 1, 0, 1, 0]. -/
theorem tally_of_31qn2_enabled_nonzero :
    countLinks (bs "31?n2") ≠ [1, 1, 0, 1, 0] ∧ (countLinks (bs "31?n2")).getD 2 0 = 1 := by
  decide

/-! ## The matcher against the language of a pattern -/

theorem starK_sound {R : Type} (p : UInt8 → Bool) (k : Bytes → Bytes → Option R) (x : R) :
    ∀ (s acc : Bytes), starK p k acc s = some x →
      ∃ u v, s = u ++ v ∧ (∀ b ∈ u, p b = true) ∧ k (acc ++ u) v = some x := by
  intro s
  induction s with
  | nil =>
    intro acc h
    exact ⟨[], [], rfl, by simp, by simpa [starK] using h⟩
  | cons b t ih =>
    intro acc h
    unfold starK at h
    by_cases hp : p b = true
    · rw [if_pos hp] at h
      cases hrec : starK p k (acc ++ [b]) t with
      | some r =>
        rw [hrec] at h
        obtain ⟨u, v, huv, hu, hk⟩ := ih (acc ++ [b]) (hrec.trans h)
        refine ⟨b :: u, v, by rw [huv]; rfl, ?_, ?_⟩
        · intro c hc
          rcases List.mem_cons.mp hc with rfl | hc
          · exact hp
          · exact hu c hc
        · simpa using hk
      | none =>
        rw [hrec] at h
        exact ⟨[], b :: t, rfl, by simp, by simpa using h⟩
    · rw [if_neg hp] at h
      exact ⟨[], b :: t, rfl, by simp, by simpa using h⟩

theorem starK_complete {R : Type} (p : UInt8 → Bool) (k : Bytes → Bytes → Option R) :
    ∀ (u v acc : Bytes), (∀ b ∈ u, p b = true) → (k (acc ++ u) v).isSome = true →
      (starK p k acc (u ++ v)).isSome = true := by
  intro u
  induction u with
  | nil =>
    intro v acc _ hk
    cases v with
    | nil => simpa [starK] using hk
    | cons c t =>
      simp only [List.nil_append, starK]
      by_cases hp : p c = true
      · rw [if_pos hp]
        cases hrec : starK p k (acc ++ [c]) t with
        | some r => rfl
        | none => simpa using hk
      · rw [if_neg hp]; simpa using hk
  | cons b u ih =>
    intro v acc hu hk
    have hb : p b = true := hu b (List.mem_cons_self _ _)
    have hrec := ih v (acc ++ [b]) (fun c hc => hu c (List.mem_cons_of_mem _ hc))
      (by simpa using hk)
    simp only [List.cons_append, starK, if_pos hb]
    cases h : starK p k (acc ++ [b]) (u ++ v) with
    | some r => rfl
    | none => rw [h] at hrec; simp at hrec

/-- Greedy preference: the repetition stops after `run` as soon as the
continuation succeeds there and fails after every longer repetition. -/
theorem starK_commit {R : Type} (p : UInt8 → Bool) (k : Bytes → Bytes → Option R) (x : R) :
    ∀ (run s acc : Bytes), (∀ b ∈ run, p b = true) →
      (∀ u v, u ≠ [] → s = u ++ v → (∀ b ∈ u, p b = true) → k (acc ++ run ++ u) v = none) →
      k (acc ++ run) s = some x → starK p k acc (run ++ s) = some x := by
  intro run
  induction run with
  | nil =>
    intro s acc _ hlong hk
    cases s with
    | nil => simpa [starK] using hk
    | cons c t =>
      simp only [List.nil_append, starK]
      by_cases hp : p c = true
      · rw [if_pos hp]
        cases hrec : starK p k (acc ++ [c]) t with
        | some r =>
          exfalso
          obtain ⟨u, v, huv, hu, hku⟩ := starK_sound p k r t (acc ++ [c]) hrec
          have := hlong (c :: u) v (by simp) (by rw [huv]; rfl) (by
            intro d hd
            rcases List.mem_cons.mp hd with rfl | hd
            · exact hp
            · exact hu d hd)
          simp at this hku
          rw [this] at hku
          cases hku
        | none => simpa using hk
      · rw [if_neg hp]; simpa using hk
  | cons b run ih =>
    intro s acc hrun hlong hk
    have hb : p b = true := hrun b (List.mem_cons_self _ _)
    have hrec := ih s (acc ++ [b]) (fun c hc => hrun c (List.mem_cons_of_mem _ hc))
      (by intro u v hu huv hpu; simpa using hlong u v hu huv hpu) (by simpa using hk)
    rw [List.cons_append, starK, if_pos hb, hrec]

theorem plusK_sound {R : Type} (p : UInt8 → Bool) (k : Bytes → Bytes → Option R) (x : R)
    (s : Bytes) (h : plusK p k s = some x) :
    ∃ u v, s = u ++ v ∧ u ≠ [] ∧ (∀ b ∈ u, p b = true) ∧ k u v = some x := by
  cases s with
  | nil => simp [plusK] at h
  | cons b t =>
    simp only [plusK] at h
    by_cases hp : p b = true
    · rw [if_pos hp] at h
      obtain ⟨u, v, huv, hu, hk⟩ := starK_sound p k x t [b] h
      refine ⟨b :: u, v, by rw [huv]; rfl, by simp, ?_, by simpa using hk⟩
      intro c hc
      rcases List.mem_cons.mp hc with rfl | hc
      · exact hp
      · exact hu c hc
    · rw [if_neg hp] at h; cases h

theorem plusK_complete {R : Type} (p : UInt8 → Bool) (k : Bytes → Bytes → Option R)
    (u v : Bytes) (hne : u ≠ []) (hu : ∀ b ∈ u, p b = true) (hk : (k u v).isSome = true) :
    (plusK p k (u ++ v)).isSome = true := by
  cases u with
  | nil => exact absurd rfl hne
  | cons b u =>
    have hb : p b = true := hu b (List.mem_cons_self _ _)
    simp only [List.cons_append, plusK, if_pos hb]
    exact starK_complete p k u v [b] (fun c hc => hu c (List.mem_cons_of_mem _ hc)) (by simpa using hk)

theorem plusK_commit {R : Type} (p : UInt8 → Bool) (k : Bytes → Bytes → Option R) (x : R)
    (run s : Bytes) (hne : run ≠ []) (hrun : ∀ b ∈ run, p b = true)
    (hlong : ∀ u v, u ≠ [] → s = u ++ v → (∀ b ∈ u, p b = true) → k (run ++ u) v = none)
    (hk : k run s = some x) : plusK p k (run ++ s) = some x := by
  cases run with
  | nil => exact absurd rfl hne
  | cons b run =>
    have hb : p b = true := hrun b (List.mem_cons_self _ _)
    simp only [List.cons_append, plusK, if_pos hb]
    exact starK_commit p k x run s [b] (fun c hc => hrun c (List.mem_cons_of_mem _ hc))
      (by intro u v hu huv hpu; simpa using hlong u v hu huv hpu) (by simpa using hk)

/-- Soundness of the matcher: a match consumes a text of the language of the
pattern and captures one text per group. -/
theorem matchHere_sound : ∀ (re : List Item) (s : Bytes) (caps : List Bytes) (rest : Bytes),
    matchHere re s = some (caps, rest) →
      ∃ w, s = w ++ rest ∧ Matches re w ∧ CapsOk caps (capClasses re) := by
  intro re
  induction re with
  | nil =>
    intro s caps rest h
    simp only [matchHere, Option.some.injEq, Prod.mk.injEq] at h
    obtain ⟨rfl, rfl⟩ := h
    exact ⟨[], rfl, rfl, List.Forall₂.nil⟩
  | cons i r ih =>
    intro s caps rest h
    cases i with
    | lit c =>
      cases s with
      | nil => simp [matchHere] at h
      | cons b t =>
        simp only [matchHere] at h
        by_cases hb : b = c
        · rw [if_pos hb] at h
          obtain ⟨w, hw, hm, hc⟩ := ih t caps rest h
          exact ⟨b :: w, by rw [hw]; rfl, ⟨[b], w, rfl, by rw [hb]; rfl, hm⟩, hc⟩
        · rw [if_neg hb] at h; cases h
    | plus p =>
      simp only [matchHere] at h
      obtain ⟨u, v, huv, hne, hu, hk⟩ := plusK_sound p _ _ s h
      obtain ⟨w, hw, hm, hc⟩ := ih v caps rest hk
      exact ⟨u ++ w, by rw [huv, hw, List.append_assoc], ⟨u, w, rfl, ⟨hne, hu⟩, hm⟩, hc⟩
    | star p =>
      simp only [matchHere] at h
      obtain ⟨u, v, huv, hu, hk⟩ := starK_sound p _ _ s [] h
      obtain ⟨w, hw, hm, hc⟩ := ih v caps rest hk
      exact ⟨u ++ w, by rw [huv, hw, List.append_assoc], ⟨u, w, rfl, hu, hm⟩, hc⟩
    | cap name p =>
      simp only [matchHere] at h
      obtain ⟨u, v, huv, hne, hu, hk⟩ := plusK_sound p _ _ s h
      cases hr : matchHere r v with
      | none => rw [hr] at hk; cases hk
      | some y =>
        obtain ⟨caps', rest'⟩ := y
        rw [hr] at hk
        simp only [Option.map_some', Option.some.injEq, Prod.mk.injEq] at hk
        obtain ⟨rfl, rfl⟩ := hk
        obtain ⟨w, hw, hm, hc⟩ := ih v caps' rest' hr
        exact ⟨u ++ w, by rw [huv, hw, List.append_assoc], ⟨u, w, rfl, ⟨hne, hu⟩, hm⟩,
          List.Forall₂.cons ⟨hne, hu⟩ hc⟩

/-- Completeness of the matcher: it succeeds wherever a text of the language
of the pattern starts. -/
theorem matchHere_complete : ∀ (re : List Item) (w post : Bytes), Matches re w →
    (matchHere re (w ++ post)).isSome = true := by
  intro re
  induction re with
  | nil =>
    intro w post _
    simp [matchHere]
  | cons i r ih =>
    intro w post h
    obtain ⟨u, v, rfl, hi, hm⟩ := h
    have hrec := ih v post hm
    cases i with
    | lit c =>
      have hu : u = [c] := hi
      subst hu
      simpa [matchHere] using hrec
    | plus p =>
      obtain ⟨hne, hu⟩ := hi
      simp only [matchHere, List.append_assoc]
      exact plusK_complete p _ u (v ++ post) hne hu hrec
    | star p =>
      have hu : ∀ b ∈ u, p b = true := hi
      simp only [matchHere, List.append_assoc]
      exact starK_complete p _ u (v ++ post) [] hu (by simpa using hrec)
    | cap name p =>
      obtain ⟨hne, hu⟩ := hi
      simp only [matchHere, List.append_assoc]
      refine plusK_complete p _ u (v ++ post) hne hu ?_
      cases hr : matchHere r (v ++ post) with
      | none => rw [hr] at hrec; cases hrec
      | some y => rfl

theorem matchHere_eq_none_iff (re : List Item) (s : Bytes) :
    matchHere re s = none ↔ ¬ ∃ w post, s = w ++ post ∧ Matches re w := by
  constructor
  · rintro h ⟨w, post, rfl, hm⟩
    have := matchHere_complete re w post hm
    rw [h] at this
    cases this
  · intro h
    cases hm : matchHere re s with
    | none => rfl
    | some y =>
      obtain ⟨caps, rest⟩ := y
      obtain ⟨w, hw, hmw, _⟩ := matchHere_sound re s caps rest hm
      exact absurd ⟨w, rest, hw, hmw⟩ h

theorem submatchHere_eq_none_iff (re : List Item) (s : Bytes) :
    submatchHere re s = none ↔ matchHere re s = none := by
  simp [submatchHere]

/-- No match is found exactly when the pattern matches at no position. -/
theorem findAllAux_eq_nil_iff (re : List Item) : ∀ s : Bytes,
    findAllAux re 0 s = [] ↔ ∀ pre t, s = pre ++ t → matchHere re t = none := by
  intro s
  induction s with
  | nil =>
    constructor
    · intro h pre t hpt
      obtain ⟨rfl, rfl⟩ := List.append_eq_nil.mp hpt.symm
      cases hm : submatchHere re [] with
      | none => exact (submatchHere_eq_none_iff re []).mp hm
      | some m => simp [findAllAux, hm] at h
    · intro h
      have := (submatchHere_eq_none_iff re []).mpr (h [] [] rfl)
      simp [findAllAux, this]
  | cons b t ih =>
    constructor
    · intro h pre u hpu
      cases hm : submatchHere re (b :: t) with
      | some m => simp [findAllAux, hm] at h
      | none =>
        simp only [findAllAux, hm] at h
        cases pre with
        | nil =>
          simp only [List.nil_append] at hpu
          rw [← hpu]
          exact (submatchHere_eq_none_iff re _).mp hm
        | cons c pre =>
          simp only [List.cons_append, List.cons.injEq] at hpu
          exact (ih.mp h) pre u hpu.2
    · intro h
      have h0 := (submatchHere_eq_none_iff re _).mpr (h [] (b :: t) rfl)
      simp only [findAllAux, h0]
      exact ih.mpr (fun pre u hpu => h (b :: pre) u (by rw [hpu]; rfl))

/-- Go `FindAllSubmatch` returns nil exactly on the inputs that contain no
match of the pattern. -/
theorem FindAllSubmatch_eq_nil_iff (re : List Item) (output : Bytes) :
    FindAllSubmatch re output = [] ↔ ¬ HasMatch re output := by
  unfold FindAllSubmatch
  rw [findAllAux_eq_nil_iff]
  constructor
  · rintro h ⟨pre, w, post, hs, hm⟩
    have := (matchHere_eq_none_iff re (w ++ post)).mp (h pre (w ++ post) (by rw [hs, List.append_assoc]))
    exact this ⟨w, post, rfl, hm⟩
  · intro h pre t hs
    rw [matchHere_eq_none_iff]
    rintro ⟨w, post, rfl, hm⟩
    exact h ⟨pre, w, post, by rw [hs, List.append_assoc], hm⟩

/-- Every match that `FindAllSubmatch` reports is a match at some position of
the input. -/
theorem findAllAux_mem (re : List Item) (m : List Bytes) : ∀ (s : Bytes) (skip : Nat),
    m ∈ findAllAux re skip s → ∃ pre t, s = pre ++ t ∧ submatchHere re t = some m := by
  intro s
  induction s with
  | nil =>
    intro skip h
    cases skip with
    | zero =>
      cases hm : submatchHere re [] with
      | none => simp [findAllAux, hm] at h
      | some m' =>
        simp only [findAllAux, hm, List.mem_singleton] at h
        exact ⟨[], [], rfl, by rw [hm, h]⟩
    | succ k => simp [findAllAux] at h
  | cons b t ih =>
    intro skip h
    cases skip with
    | zero =>
      cases hm : submatchHere re (b :: t) with
      | none =>
        simp only [findAllAux, hm] at h
        obtain ⟨pre, u, hpu, hu⟩ := ih 0 h
        exact ⟨b :: pre, u, by rw [hpu]; rfl, hu⟩
      | some m' =>
        simp only [findAllAux, hm, List.mem_cons] at h
        rcases h with rfl | h
        · exact ⟨[], b :: t, rfl, hm⟩
        · obtain ⟨pre, u, hpu, hu⟩ := ih _ h
          exact ⟨b :: pre, u, by rw [hpu]; rfl, hu⟩
    | succ k =>
      simp only [findAllAux] at h
      obtain ⟨pre, u, hpu, hu⟩ := ih k h
      exact ⟨b :: pre, u, by rw [hpu]; rfl, hu⟩

/-- The shape of a reported match: the whole match followed by one
well-formed capture per group. -/
theorem submatchHere_shape (re : List Item) (t : Bytes) (m : List Bytes)
    (h : submatchHere re t = some m) :
    ∃ whole caps, m = whole :: caps ∧ CapsOk caps (capClasses re) := by
  unfold submatchHere at h
  cases hm : matchHere re t with
  | none => rw [hm] at h; cases h
  | some y =>
    obtain ⟨caps, rest⟩ := y
    rw [hm] at h
    simp only [Option.map_some', Option.some.injEq] at h
    obtain ⟨w, _, _, hc⟩ := matchHere_sound re t caps rest hm
    exact ⟨_, caps, h.symm, hc⟩

theorem FindAllSubmatch_shape (re : List Item) (output : Bytes) (m : List Bytes)
    (h : m ∈ FindAllSubmatch re output) :
    ∃ whole caps, m = whole :: caps ∧ CapsOk caps (capClasses re) := by
  obtain ⟨_, t, _, ht⟩ := findAllAux_mem re m output 0 h
  exact submatchHere_shape re t m ht

/-! ## Decimal numbers: printing and `strconv.ParseUint` -/

theorem foldl_digit_le (t : Bytes) : ∀ n : Nat,
    n ≤ t.foldl (fun n c => n * 10 + (c.toNat - 48)) n := by
  induction t with
  | nil => intro n; exact Nat.le_refl n
  | cons c t ih =>
    intro n
    simp only [List.foldl_cons]
    exact Nat.le_trans (by omega) (ih _)

theorem parseUintLoop_spec (maxVal : Nat) (hmax : maxVal < 2 ^ 64) : ∀ (t : Bytes) (n : Nat),
    n ≤ maxVal → (∀ b ∈ t, isDigit b = true) →
    parseUintLoop maxVal n t =
      if t.foldl (fun n c => n * 10 + (c.toNat - 48)) n ≤ maxVal then
        some (some (t.foldl (fun n c => n * 10 + (c.toNat - 48)) n))
      else some none := by
  intro t
  induction t with
  | nil =>
    intro n hn _
    simp [parseUintLoop, hn]
  | cons c t ih =>
    intro n hn hd
    have hc : isDigit c = true := hd c (List.mem_cons_self _ _)
    have ht : ∀ b ∈ t, isDigit b = true := fun b hb => hd b (List.mem_cons_of_mem _ hb)
    have hc' : 48 ≤ c.toNat ∧ c.toNat ≤ 57 := by simpa [isDigit] using hc
    have hge := foldl_digit_le t (n * 10 + (c.toNat - 48))
    simp only [parseUintLoop, hc, Bool.not_true, Bool.false_eq_true, if_false, List.foldl_cons]
    by_cases h1 : n ≥ (2 ^ 64 - 1) / 10 + 1
    · rw [if_pos h1, if_neg]
      have : 2 ^ 64 ≤ n * 10 := by
        have e : (2 ^ 64 - 1) / 10 + 1 = 1844674407370955162 := by norm_num
        rw [e] at h1
        have e2 : (2 : Nat) ^ 64 = 18446744073709551616 := by norm_num
        omega
      omega
    · rw [if_neg h1]
      have hlt : n * 10 ≤ 18446744073709551610 := by
        have e : (2 ^ 64 - 1) / 10 + 1 = 1844674407370955162 := by norm_num
        rw [e] at h1
        omega
      have e2 : (2 : Nat) ^ 64 = 18446744073709551616 := by norm_num
      by_cases h2 : n * 10 + (c.toNat - 48) < 2 ^ 64
      · rw [Nat.mod_eq_of_lt h2]
        by_cases h3 : n * 10 + (c.toNat - 48) > maxVal
        · have : (decide (n * 10 + (c.toNat - 48) < n * 10) || decide (n * 10 + (c.toNat - 48) > maxVal)) = true := by
            simp [h3]
          rw [if_pos this, if_neg]
          omega
        · have : ¬ ((decide (n * 10 + (c.toNat - 48) < n * 10) || decide (n * 10 + (c.toNat - 48) > maxVal)) = true) := by
            simp [h3]
          rw [if_neg this]
          exact ih _ (by omega) ht
      · have hmod : (n * 10 + (c.toNat - 48)) % 2 ^ 64 = n * 10 + (c.toNat - 48) - 2 ^ 64 := by
          rw [Nat.mod_eq_sub_mod (by omega), Nat.mod_eq_of_lt (by omega)]
        rw [hmod]
        have : (decide (n * 10 + (c.toNat - 48) - 2 ^ 64 < n * 10) ||
            decide (n * 10 + (c.toNat - 48) - 2 ^ 64 > maxVal)) = true := by
          have : n * 10 + (c.toNat - 48) - 2 ^ 64 < n * 10 := by omega
          rw [decide_eq_true this]; rfl
        rw [if_pos this, if_neg]
        omega

theorem digitsValue_eq (s : Bytes) :
    digitsValue s = s.foldl (fun n c => n * 10 + (c.toNat - 48)) 0 := rfl

/-- A digit string whose value fits the bit size parses to its value. -/
theorem ParseUint_ok (s : Bytes) (bitSize : Nat) (hb : bitSize ≤ 64) (hne : s ≠ [])
    (hd : ∀ b ∈ s, isDigit b = true) (hv : digitsValue s < 2 ^ bitSize) :
    ParseUint s bitSize = .ok (digitsValue s) := by
  have hpos : 0 < 2 ^ bitSize := Nat.pow_pos (by decide)
  have hle : 2 ^ bitSize ≤ 2 ^ 64 := Nat.pow_le_pow_right (by decide) hb
  have hmax : 2 ^ bitSize - 1 < 2 ^ 64 := by omega
  have := parseUintLoop_spec (2 ^ bitSize - 1) hmax s 0 (Nat.zero_le _) hd
  rw [← digitsValue_eq] at this
  rw [if_pos (by omega)] at this
  simp only [ParseUint, if_neg hne, this]

/-- A digit string whose value does not fit the bit size is a range error. -/
theorem ParseUint_range (s : Bytes) (bitSize : Nat) (hb : bitSize ≤ 64) (hne : s ≠ [])
    (hd : ∀ b ∈ s, isDigit b = true) (hv : 2 ^ bitSize ≤ digitsValue s) :
    ParseUint s bitSize = .error (.numError "ParseUint" s ErrRange) := by
  have hpos : 0 < 2 ^ bitSize := Nat.pow_pos (by decide)
  have hle : 2 ^ bitSize ≤ 2 ^ 64 := Nat.pow_le_pow_right (by decide) hb
  have hmax : 2 ^ bitSize - 1 < 2 ^ 64 := by omega
  have := parseUintLoop_spec (2 ^ bitSize - 1) hmax s 0 (Nat.zero_le _) hd
  rw [← digitsValue_eq] at this
  rw [if_neg (by omega)] at this
  simp only [ParseUint, if_neg hne, this]

theorem toNat_digit (d : Nat) (h : d < 10) : (UInt8.ofNat (48 + d)).toNat = 48 + d := by
  have : 48 + d < 256 := by omega
  simp [UInt8.toNat, UInt8.ofNat, Fin.ofNat, Nat.mod_eq_of_lt this]

theorem decimalCore_spec : ∀ (fuel n : Nat) (acc : Bytes), n < fuel →
    ∃ pre, decimalCore fuel n acc = pre ++ acc ∧ pre ≠ [] ∧ (∀ b ∈ pre, isDigit b = true) ∧
      digitsValue pre = n := by
  intro fuel
  induction fuel with
  | zero => intro n acc h; omega
  | succ fuel ih =>
    intro n acc h
    have hd := toNat_digit (n % 10) (Nat.mod_lt _ (by decide))
    have hdig : isDigit (UInt8.ofNat (48 + n % 10)) = true := by
      have := Nat.mod_lt n (show 0 < 10 by decide)
      simp [isDigit, hd]; omega
    by_cases h0 : n / 10 = 0
    · refine ⟨[UInt8.ofNat (48 + n % 10)], by simp [decimalCore, h0], by simp, ?_, ?_⟩
      · intro b hb
        rw [List.mem_singleton.mp hb]; exact hdig
      · simp [digitsValue, hd]; omega
    · obtain ⟨pre, hpre, _, hdg, hval⟩ := ih (n / 10) (UInt8.ofNat (48 + n % 10) :: acc) (by omega)
      refine ⟨pre ++ [UInt8.ofNat (48 + n % 10)], ?_, by simp, ?_, ?_⟩
      · simp [decimalCore, h0, hpre]
      · intro b hb
        rcases List.mem_append.mp hb with hb | hb
        · exact hdg b hb
        · rw [List.mem_singleton.mp hb]; exact hdig
      · rw [digitsValue_eq] at hval ⊢
        rw [List.foldl_append, hval]
        simp [hd]; omega

theorem decimal_ne_nil (n : Nat) : decimal n ≠ [] := by
  obtain ⟨pre, h, hne, _, _⟩ := decimalCore_spec (n + 1) n [] (Nat.lt_succ_self n)
  rw [decimal, h, List.append_nil]; exact hne

theorem decimal_isDigit (n : Nat) : ∀ b ∈ decimal n, isDigit b = true := by
  obtain ⟨pre, h, _, hd, _⟩ := decimalCore_spec (n + 1) n [] (Nat.lt_succ_self n)
  rw [decimal, h, List.append_nil]; exact hd

theorem digitsValue_decimal (n : Nat) : digitsValue (decimal n) = n := by
  obtain ⟨pre, h, _, _, hv⟩ := decimalCore_spec (n + 1) n [] (Nat.lt_succ_self n)
  rw [decimal, h, List.append_nil]; exact hv

/-- Parsing a printed number gives the number back when it fits. -/
theorem ParseUint_decimal (n bitSize : Nat) (hb : bitSize ≤ 64) (hn : n < 2 ^ bitSize) :
    ParseUint (decimal n) bitSize = .ok n := by
  have := ParseUint_ok (decimal n) bitSize hb (decimal_ne_nil n) (decimal_isDigit n)
    (by rw [digitsValue_decimal]; exact hn)
  rw [this, digitsValue_decimal]

/-! ## The three patterns -/

theorem capClasses_quorumRE :
    capClasses quorumRE = [isDateChar, isWord, isDigit, isDigit, isRingChar, isWord] := rfl

theorem capClasses_ringsRE : capClasses ringsRE = [isDigit, isWord, isDot, isDot] := rfl

theorem capClasses_voteqorumInfoRE :
    capClasses voteqorumInfoRE = [isDigit, isDigit, isDigit, isDigit, isWord] := rfl

theorem SubexpNames_ringsRE : SubexpNames ringsRE = ["", "id", "proto", "address", "status"] := by
  decide

theorem extractCapturedGroups_rings (whole a b c d : Bytes) :
    extractCapturedGroups (SubexpNames ringsRE) [whole, a, b, c, d] =
      some [("id", a), ("proto", b), ("address", c), ("status", d)] := by
  rw [SubexpNames_ringsRE]
  simp [extractCapturedGroups, List.enum, List.enumFrom]

/-! ## parseQuorumStatus -/

theorem capsOk_cons_inv {c : Bytes} {cs : List Bytes} {p : UInt8 → Bool}
    {ps : List (UInt8 → Bool)} (h : CapsOk (c :: cs) (p :: ps)) :
    (c ≠ [] ∧ ∀ b ∈ c, p b = true) ∧ CapsOk cs ps := by
  cases h with
  | cons h1 h2 => exact ⟨h1, h2⟩

theorem capsOk_left_cons {caps : List Bytes} {p : UInt8 → Bool} {ps : List (UInt8 → Bool)}
    (h : CapsOk caps (p :: ps)) :
    ∃ c cs, caps = c :: cs ∧ (c ≠ [] ∧ ∀ b ∈ c, p b = true) ∧ CapsOk cs ps := by
  cases h with
  | cons h1 h2 => exact ⟨_, _, rfl, h1, h2⟩

theorem capsOk_left_nil {caps : List Bytes} (h : CapsOk caps []) : caps = [] := by
  cases h; rfl

theorem FindAllSubmatch_ne_nil (re : List Item) (output : Bytes) (h : HasMatch re output) :
    ∃ m rest, FindAllSubmatch re output = m :: rest := by
  cases hf : FindAllSubmatch re output with
  | nil => exact absurd h ((FindAllSubmatch_eq_nil_iff re output).mp hf)
  | cons m rest => exact ⟨m, rest, rfl⟩

/-- The first match of the quorum block: seven submatches, the numeric ones
non-empty digit strings. -/
theorem quorum_first_match (output : Bytes) (h : HasMatch quorumRE output) :
    ∃ whole c1 c2 c3 c4 c5 c6 rest,
      FindAllSubmatch quorumRE output = [whole, c1, c2, c3, c4, c5, c6] :: rest ∧
      (c3 ≠ [] ∧ ∀ b ∈ c3, isDigit b = true) ∧ (c4 ≠ [] ∧ ∀ b ∈ c4, isDigit b = true) ∧
      (c5 ≠ [] ∧ ∀ b ∈ c5, isRingChar b = true) ∧ (c6 ≠ [] ∧ ∀ b ∈ c6, isWord b = true) := by
  obtain ⟨m, rest, hm⟩ := FindAllSubmatch_ne_nil quorumRE output h
  obtain ⟨whole, caps, rfl, hc⟩ :=
    FindAllSubmatch_shape quorumRE output m (by rw [hm]; exact List.mem_cons_self _ _)
  rw [capClasses_quorumRE] at hc
  obtain ⟨c1, t1, rfl, _, hc⟩ := capsOk_left_cons hc
  obtain ⟨c2, t2, rfl, _, hc⟩ := capsOk_left_cons hc
  obtain ⟨c3, t3, rfl, h3, hc⟩ := capsOk_left_cons hc
  obtain ⟨c4, t4, rfl, h4, hc⟩ := capsOk_left_cons hc
  obtain ⟨c5, t5, rfl, h5, hc⟩ := capsOk_left_cons hc
  obtain ⟨c6, t6, rfl, h6, hc⟩ := capsOk_left_cons hc
  have := capsOk_left_nil hc
  subst this
  exact ⟨whole, c1, c2, c3, c4, c5, c6, rest, hm, h3, h4, h5, h6⟩

/-- What `parseQuorumStatus` returns on an output whose quorum block matches
with in-range numbers. -/
theorem parseQuorumStatus_of_match (s : quorumStatus) (output : Bytes)
    (h : HasMatch quorumRE output)
    (hn : digitsValue (firstCapture quorumRE output 3) < 2 ^ 32)
    (hi : digitsValue (firstCapture quorumRE output 4) < 2 ^ 32) :
    parseQuorumStatus s output =
      if firstCapture quorumRE output 6 = bs "Yes" then
        .ret { nodeId := digitsValue (firstCapture quorumRE output 4),
               ringId := firstCapture quorumRE output 5, isQuorate := true,
               totalNodes := digitsValue (firstCapture quorumRE output 3) } none
      else if firstCapture quorumRE output 6 = bs "No" then
        .ret { nodeId := digitsValue (firstCapture quorumRE output 4),
               ringId := firstCapture quorumRE output 5, isQuorate := false,
               totalNodes := digitsValue (firstCapture quorumRE output 3) } none
      else
        .ret { nodeId := digitsValue (firstCapture quorumRE output 4),
               ringId := firstCapture quorumRE output 5, isQuorate := s.isQuorate,
               totalNodes := digitsValue (firstCapture quorumRE output 3) }
          (some (.new "unable to parse quorum status")) := by
  obtain ⟨whole, c1, c2, c3, c4, c5, c6, rest, hm, h3, h4, _, _⟩ := quorum_first_match output h
  simp only [firstCapture, hm, List.headD_cons, List.getD_cons_succ, List.getD_cons_zero] at hn hi ⊢
  have p3 := ParseUint_ok c3 32 (by decide) h3.1 h3.2 hn
  have p4 := ParseUint_ok c4 32 (by decide) h4.1 h4.2 hi
  simp only [parseQuorumStatus, hm, List.getElem?_cons_succ, List.getElem?_cons_zero, p3, p4]

/-- C3: for every input in which the quorum block matches with in-range
Nodes and Node ID values, `parseQuorumStatus` sets isQuorate = true without
error when the Quorate token is exactly "Yes", sets it to false without
error when the token is exactly "No", and returns the error "unable to parse
quorum status" for every other token. -/
theorem parseQuorumStatus_quorate_token (s : quorumStatus) (output : Bytes)
    (h : HasMatch quorumRE output)
    (hn : digitsValue (firstCapture quorumRE output 3) < 2 ^ 32)
    (hi : digitsValue (firstCapture quorumRE output 4) < 2 ^ 32) :
    (firstCapture quorumRE output 6 = bs "Yes" →
      ∃ s', parseQuorumStatus s output = .ret s' none ∧ s'.isQuorate = true) ∧
    (firstCapture quorumRE output 6 = bs "No" →
      ∃ s', parseQuorumStatus s output = .ret s' none ∧ s'.isQuorate = false) ∧
    (firstCapture quorumRE output 6 ≠ bs "Yes" → firstCapture quorumRE output 6 ≠ bs "No" →
      ∃ s', parseQuorumStatus s output =
        .ret s' (some (.new "unable to parse quorum status"))) := by
  have hp := parseQuorumStatus_of_match s output h hn hi
  refine ⟨fun hy => ?_, fun hno => ?_, fun hy hno => ?_⟩
  · rw [if_pos hy] at hp
    exact ⟨_, hp, rfl⟩
  · have hy : firstCapture quorumRE output 6 ≠ bs "Yes" := by rw [hno]; decide
    rw [if_neg hy, if_pos hno] at hp
    exact ⟨_, hp, rfl⟩
  · rw [if_neg hy, if_neg hno] at hp
    exact ⟨_, hp⟩

theorem hasMatch_of_find (re : List Item) (output : Bytes)
    (h : FindAllSubmatch re output ≠ []) : HasMatch re output := by
  by_contra hc
  exact h ((FindAllSubmatch_eq_nil_iff re output).mpr hc)

/-- C3 at the output `sampleMaybe`, whose Quorate token is "Maybe": an error,
not a silent false. -/
theorem parseQuorumStatus_quorate_token_witness :
    ∃ s', parseQuorumStatus quorumStatus.zero sampleMaybe =
      .ret s' (some (.new "unable to parse quorum status")) :=
  (parseQuorumStatus_quorate_token quorumStatus.zero sampleMaybe
    (hasMatch_of_find _ _ (by decide!)) (by decide!) (by decide!)).2.2 (by decide!) (by decide!)

/-- C6: for every input that contains no match of the quorum block,
`parseQuorumStatus` returns the error "corosync-quorumtool returned incorrect
data"; whenever the block matches with in-range numbers and a Quorate token
that is neither "Yes" nor "No", the error returned is "unable to parse quorum
status", a different error. -/
theorem parseQuorumStatus_no_match (s : quorumStatus) (output : Bytes)
    (h : ¬ HasMatch quorumRE output) :
    parseQuorumStatus s output =
        .ret s (some (.new "corosync-quorumtool returned incorrect data")) ∧
      ∀ (t : quorumStatus) (other : Bytes), HasMatch quorumRE other →
        digitsValue (firstCapture quorumRE other 3) < 2 ^ 32 →
        digitsValue (firstCapture quorumRE other 4) < 2 ^ 32 →
        firstCapture quorumRE other 6 ≠ bs "Yes" → firstCapture quorumRE other 6 ≠ bs "No" →
        ∃ t', parseQuorumStatus t other = .ret t' (some (.new "unable to parse quorum status")) ∧
          Error.new "unable to parse quorum status" ≠
            Error.new "corosync-quorumtool returned incorrect data" := by
  constructor
  · have hf := (FindAllSubmatch_eq_nil_iff quorumRE output).mpr h
    simp only [parseQuorumStatus, hf]
  · intro t other hm hn hi hy hno
    have hp := parseQuorumStatus_of_match t other hm hn hi
    rw [if_neg hy, if_neg hno] at hp
    exact ⟨_, hp, by decide⟩

theorem not_hasMatch_of_find (re : List Item) (output : Bytes)
    (h : FindAllSubmatch re output = []) : ¬ HasMatch re output :=
  (FindAllSubmatch_eq_nil_iff re output).mp h

/-- C6 at the empty output (no quorum block), with the other error shown on
`sampleMaybe`. -/
theorem parseQuorumStatus_no_match_witness :
    parseQuorumStatus quorumStatus.zero (bs "") =
        .ret quorumStatus.zero (some (.new "corosync-quorumtool returned incorrect data")) ∧
      ∃ t', parseQuorumStatus quorumStatus.zero sampleMaybe =
          .ret t' (some (.new "unable to parse quorum status")) ∧
        Error.new "unable to parse quorum status" ≠
          Error.new "corosync-quorumtool returned incorrect data" :=
  have h := parseQuorumStatus_no_match quorumStatus.zero (bs "")
    (not_hasMatch_of_find _ _ (by decide))
  ⟨h.1, h.2 quorumStatus.zero sampleMaybe (hasMatch_of_find _ _ (by decide!)) (by decide!)
    (by decide!) (by decide!) (by decide!)⟩

/-! ## parseVotequorumInfo -/

/-- On an output without a vote-tally block the method indexes the empty
match list and panics. -/
theorem parseVotequorumInfo_panics_of_no_match (s : votequorumStatus) (output : Bytes)
    (h : ¬ HasMatch voteqorumInfoRE output) : parseVotequorumInfo s output = .panic := by
  have hf := (FindAllSubmatch_eq_nil_iff voteqorumInfoRE output).mpr h
  simp only [parseVotequorumInfo, hf, List.getElem?_nil]

/-- C4 (code defect): on `sampleInquorate`, which contains no match of the
vote-tally block, `parseVotequorumInfo` panics instead of returning a parse
error, and so it does on every output without a match. -/
theorem parseVotequorumInfo_no_match_panics :
    ¬ HasMatch voteqorumInfoRE sampleInquorate ∧
      parseVotequorumInfo votequorumStatus.zero sampleInquorate = .panic ∧
      ∀ (s : votequorumStatus) (output : Bytes), ¬ HasMatch voteqorumInfoRE output →
        parseVotequorumInfo s output = .panic :=
  ⟨not_hasMatch_of_find _ _ (by decide!), by decide!, parseVotequorumInfo_panics_of_no_match⟩

theorem splitAux_no_sep (sep : UInt8) : ∀ (s cur : Bytes), (∀ b ∈ s, b ≠ sep) →
    splitAux sep cur s = [cur ++ s] := by
  intro s
  induction s with
  | nil => intro cur _; simp [splitAux]
  | cons b t ih =>
    intro cur h
    have hb : b ≠ sep := h b (List.mem_cons_self _ _)
    simp only [splitAux, if_neg hb]
    rw [ih _ (fun c hc => h c (List.mem_cons_of_mem _ hc))]
    simp

theorem isWord_ne_space (b : UInt8) (h : isWord b = true) : b ≠ 32 := by
  rintro rfl
  revert h
  decide

/-- The first match of the vote-tally block: six submatches. -/
theorem vote_first_match (output : Bytes) (m : List Bytes) (rest : List (List Bytes))
    (hm : FindAllSubmatch voteqorumInfoRE output = m :: rest) :
    ∃ whole c1 c2 c3 c4 c5, m = [whole, c1, c2, c3, c4, c5] ∧
      (c1 ≠ [] ∧ ∀ b ∈ c1, isDigit b = true) ∧ (c2 ≠ [] ∧ ∀ b ∈ c2, isDigit b = true) ∧
      (c3 ≠ [] ∧ ∀ b ∈ c3, isDigit b = true) ∧ (c4 ≠ [] ∧ ∀ b ∈ c4, isDigit b = true) ∧
      (c5 ≠ [] ∧ ∀ b ∈ c5, isWord b = true) := by
  obtain ⟨whole, caps, rfl, hc⟩ :=
    FindAllSubmatch_shape voteqorumInfoRE output m (by rw [hm]; exact List.mem_cons_self _ _)
  rw [capClasses_voteqorumInfoRE] at hc
  obtain ⟨c1, t1, rfl, h1, hc⟩ := capsOk_left_cons hc
  obtain ⟨c2, t2, rfl, h2, hc⟩ := capsOk_left_cons hc
  obtain ⟨c3, t3, rfl, h3, hc⟩ := capsOk_left_cons hc
  obtain ⟨c4, t4, rfl, h4, hc⟩ := capsOk_left_cons hc
  obtain ⟨c5, t5, rfl, h5, hc⟩ := capsOk_left_cons hc
  have := capsOk_left_nil hc
  subst this
  exact ⟨whole, c1, c2, c3, c4, c5, rfl, h1, h2, h3, h4, h5⟩

/-- Whenever `parseVotequorumInfo` succeeds, the flags it stores are the one
word captured after the Flags label. -/
theorem parseVotequorumInfo_flags_single (s s' : votequorumStatus) (output : Bytes)
    (h : parseVotequorumInfo s output = .ret s' none) :
    s'.flags = [firstCapture voteqorumInfoRE output 5] := by
  cases hf : FindAllSubmatch voteqorumInfoRE output with
  | nil => simp [parseVotequorumInfo, hf] at h
  | cons m rest =>
    obtain ⟨whole, c1, c2, c3, c4, c5, rfl, _, _, _, _, h5⟩ := vote_first_match output m rest hf
    have hsplit : Split c5 32 = [c5] := by
      have := splitAux_no_sep 32 c5 [] (fun b hb => isWord_ne_space b (h5.2 b hb))
      simpa [Split] using this
    simp only [parseVotequorumInfo, hf, List.getElem?_cons_zero, List.getElem?_cons_succ] at h
    simp only [firstCapture, hf, List.headD_cons, List.getD_cons_succ, List.getD_cons_zero]
    cases p1 : ParseUint c1 32 <;> rw [p1] at h <;> simp only at h
    · cases h
    cases p2 : ParseUint c2 32 <;> rw [p2] at h <;> simp only at h
    · cases h
    cases p3 : ParseUint c3 32 <;> rw [p3] at h <;> simp only at h
    · cases h
    cases p4 : ParseUint c4 32 <;> rw [p4] at h <;> simp only at h
    · cases h
    rw [hsplit] at h
    cases h
    rfl

/-- C5 (code defect): on `sampleQuorate`, whose Flags line carries the two
words "Quorate WaitForAll", `parseVotequorumInfo` stores the single flag
"Quorate"; on every output it stores only the first word. -/
theorem parseVotequorumInfo_keeps_first_flag :
    parseVotequorumInfo votequorumStatus.zero sampleQuorate =
        .ret { totalVotes := 2, expectedVotes := 2, highestExpected := 2, quorum := 1,
               flags := [bs "Quorate"] } none ∧
      ∀ (s s' : votequorumStatus) (output : Bytes), parseVotequorumInfo s output = .ret s' none →
        s'.flags = [firstCapture voteqorumInfoRE output 5] :=
  ⟨by decide!, parseVotequorumInfo_flags_single⟩

/-! ## parseRingStatus -/

/-- Every match of the LINK ID block has five submatches, the id a non-empty
digit string and the other captures non-empty. -/
theorem rings_match_shape (output : Bytes) (m : List Bytes)
    (h : m ∈ FindAllSubmatch ringsRE output) :
    ∃ whole a b c d, m = [whole, a, b, c, d] ∧ (a ≠ [] ∧ ∀ x ∈ a, isDigit x = true) ∧
      (b ≠ [] ∧ ∀ x ∈ b, isWord x = true) ∧ (c ≠ [] ∧ ∀ x ∈ c, isDot x = true) ∧
      (d ≠ [] ∧ ∀ x ∈ d, isDot x = true) := by
  obtain ⟨whole, caps, rfl, hc⟩ := FindAllSubmatch_shape ringsRE output m h
  rw [capClasses_ringsRE] at hc
  obtain ⟨a, t1, rfl, h1, hc⟩ := capsOk_left_cons hc
  obtain ⟨b, t2, rfl, h2, hc⟩ := capsOk_left_cons hc
  obtain ⟨c, t3, rfl, h3, hc⟩ := capsOk_left_cons hc
  obtain ⟨d, t4, rfl, h4, hc⟩ := capsOk_left_cons hc
  have := capsOk_left_nil hc
  subst this
  exact ⟨whole, a, b, c, d, rfl, h1, h2, h3, h4⟩

/-- One iteration of the loop on a match whose id fits 64 bits appends the
ring the match stands for. -/
theorem parseRingStatusLoop_step_ok (s : nodeStatus) (whole a b c d : Bytes)
    (ms : List (List Bytes)) (ha : a ≠ [] ∧ ∀ x ∈ a, isDigit x = true)
    (hv : digitsValue a < 2 ^ 64) :
    parseRingStatusLoop s ([whole, a, b, c, d] :: ms) =
      parseRingStatusLoop { s with rings := s.rings ++ [ringOf [whole, a, b, c, d]] } ms := by
  have hp := ParseUint_ok a 64 (Nat.le_refl _) ha.1 ha.2 hv
  rw [parseRingStatusLoop, extractCapturedGroups_rings]
  simp [lookup, List.find?, hp, ringOf]

/-- One iteration of the loop on a match whose id does not fit 64 bits
returns the Ring ID error. -/
theorem parseRingStatusLoop_step_err (s : nodeStatus) (whole a b c d : Bytes)
    (ms : List (List Bytes)) (ha : a ≠ [] ∧ ∀ x ∈ a, isDigit x = true)
    (hv : 2 ^ 64 ≤ digitsValue a) :
    parseRingStatusLoop s ([whole, a, b, c, d] :: ms) =
      .ret s (some (.wrap "unable to parse Ring ID" (.numError "ParseUint" a ErrRange))) := by
  have hp := ParseUint_range a 64 (Nat.le_refl _) ha.1 ha.2 hv
  rw [parseRingStatusLoop, extractCapturedGroups_rings]
  simp [lookup, List.find?, hp]

theorem parseRingStatusLoop_ok : ∀ (ms : List (List Bytes)) (s : nodeStatus),
    (∀ m ∈ ms, RingMatch m) → (∀ m ∈ ms, digitsValue (m.getD 1 []) < 2 ^ 64) →
    parseRingStatusLoop s ms = .ret { s with rings := s.rings ++ ms.map ringOf } none := by
  intro ms
  induction ms with
  | nil => intro s _ _; simp [parseRingStatusLoop]
  | cons m ms ih =>
    intro s hm hv
    obtain ⟨whole, a, b, c, d, rfl, ha⟩ := hm m (List.mem_cons_self _ _)
    have hva : digitsValue a < 2 ^ 64 := by simpa using hv _ (List.mem_cons_self _ _)
    rw [parseRingStatusLoop_step_ok s whole a b c d ms ha hva,
      ih _ (fun x hx => hm x (List.mem_cons_of_mem _ hx))
        (fun x hx => hv x (List.mem_cons_of_mem _ hx))]
    simp

theorem parseRingStatusLoop_err : ∀ (ms : List (List Bytes)) (s : nodeStatus),
    (∀ m ∈ ms, RingMatch m) → (∃ m ∈ ms, 2 ^ 64 ≤ digitsValue (m.getD 1 [])) →
    ∃ s' e, parseRingStatusLoop s ms = .ret s' (some (.wrap "unable to parse Ring ID" e)) := by
  intro ms
  induction ms with
  | nil => intro s _ h; obtain ⟨m, hm, _⟩ := h; cases hm
  | cons m ms ih =>
    intro s hm hv
    obtain ⟨whole, a, b, c, d, rfl, ha⟩ := hm _ (List.mem_cons_self _ _)
    by_cases hva : digitsValue a < 2 ^ 64
    · rw [parseRingStatusLoop_step_ok s whole a b c d ms ha hva]
      apply ih _ (fun x hx => hm x (List.mem_cons_of_mem _ hx))
      obtain ⟨x, hx, hxv⟩ := hv
      rcases List.mem_cons.mp hx with rfl | hx
      · simp at hxv; omega
      · exact ⟨x, hx, hxv⟩
    · exact ⟨s, _, parseRingStatusLoop_step_err s whole a b c d ms ha (by omega)⟩

theorem rings_all_RingMatch (output : Bytes) : ∀ m ∈ FindAllSubmatch ringsRE output, RingMatch m := by
  intro m hm
  obtain ⟨whole, a, b, c, d, rfl, ha, _⟩ := rings_match_shape output m hm
  exact ⟨whole, a, b, c, d, rfl, ha⟩

/-- C7 (amended): for every byte input, `parseRingStatus` does not panic, and
it returns no error exactly when the LINK ID number of every match is below
2^64; a match whose number is 2^64 or more makes it return the error "unable
to parse Ring ID". -/
theorem parseRingStatus_error_iff (s : nodeStatus) (output : Bytes) :
    parseRingStatus s output ≠ .panic ∧
      ((∃ s', parseRingStatus s output = .ret s' none) ↔
        ∀ m ∈ FindAllSubmatch ringsRE output, digitsValue (m.getD 1 []) < 2 ^ 64) ∧
      ((∃ s' e, parseRingStatus s output =
          .ret s' (some (.wrap "unable to parse Ring ID" e))) ↔
        ∃ m ∈ FindAllSubmatch ringsRE output, 2 ^ 64 ≤ digitsValue (m.getD 1 [])) := by
  have hshape := rings_all_RingMatch output
  by_cases hall : ∀ m ∈ FindAllSubmatch ringsRE output, digitsValue (m.getD 1 []) < 2 ^ 64
  · have hok := parseRingStatusLoop_ok _ s hshape hall
    have hne : ¬ ∃ m ∈ FindAllSubmatch ringsRE output, 2 ^ 64 ≤ digitsValue (m.getD 1 []) := by
      rintro ⟨m, hm, hv⟩
      have := hall m hm
      omega
    unfold parseRingStatus
    rw [hok]
    refine ⟨by simp, ⟨fun _ => hall, fun _ => ⟨_, rfl⟩⟩, ⟨?_, fun h => absurd h hne⟩⟩
    rintro ⟨s', e, h⟩
    cases h
  · have hex : ∃ m ∈ FindAllSubmatch ringsRE output, 2 ^ 64 ≤ digitsValue (m.getD 1 []) := by
      by_contra hc
      apply hall
      intro m hm
      by_contra hv
      exact hc ⟨m, hm, by omega⟩
    obtain ⟨s', e, herr⟩ := parseRingStatusLoop_err _ s hshape hex
    unfold parseRingStatus
    rw [herr]
    refine ⟨by simp, ⟨?_, fun h => absurd h hall⟩, ⟨fun _ => hex, fun _ => ⟨s', e, rfl⟩⟩⟩
    rintro ⟨s'', h⟩
    cases h

/-- C7 (as stated) fails: on `sampleBigLinkId`, whose LINK ID number is 2^64,
`parseRingStatus` returns an error. -/
theorem parseRingStatus_big_id_error :
    parseRingStatus nodeStatus.zero sampleBigLinkId =
      .ret nodeStatus.zero
        (some (.wrap "unable to parse Ring ID"
          (.numError "ParseUint" (bs "18446744073709551616") ErrRange))) := by
  decide!

/-- C8: for every input that contains no LINK ID block matching the link
grammar, `parseRingStatus` started on an empty ring list returns no error and
leaves the ring list empty. -/
theorem parseRingStatus_no_match (q : quorumStatus) (v : votequorumStatus) (output : Bytes)
    (h : ¬ HasMatch ringsRE output) :
    parseRingStatus { quorum := q, votequorum := v, rings := [] } output =
      .ret { quorum := q, votequorum := v, rings := [] } none := by
  have hf := (FindAllSubmatch_eq_nil_iff ringsRE output).mpr h
  simp only [parseRingStatus, hf, parseRingStatusLoop]

/-- C8 at the empty input. -/
theorem parseRingStatus_no_match_witness :
    ¬ HasMatch ringsRE (bs "") ∧
      parseRingStatus nodeStatus.zero (bs "") = .ret nodeStatus.zero none :=
  ⟨not_hasMatch_of_find _ _ (by decide),
    parseRingStatus_no_match quorumStatus.zero votequorumStatus.zero (bs "")
      (not_hasMatch_of_find _ _ (by decide))⟩

/-! ## Matching a laid-out text step by step -/

theorem matchHere_map_lit (w : Bytes) (r : List Item) (t : Bytes) :
    matchHere (w.map Item.lit ++ r) (w ++ t) = matchHere r t := by
  induction w with
  | nil => rfl
  | cons b w ih => simp [matchHere, ih]

theorem matchHere_lits (w : String) (r : List Item) (t : Bytes) :
    matchHere (lits w ++ r) (bs w ++ t) = matchHere r t :=
  matchHere_map_lit (bs w) r t

theorem matchHere_map_lit_none (w : Bytes) (r : List Item) : ∀ t : Bytes, ¬ w <+: t →
    matchHere (w.map Item.lit ++ r) t = none := by
  induction w with
  | nil => intro t h; exact absurd List.nil_prefix h
  | cons b w ih =>
    intro t h
    cases t with
    | nil => simp [matchHere]
    | cons c t =>
      simp only [List.map_cons, List.cons_append, matchHere]
      by_cases hc : c = b
      · subst hc
        rw [if_pos rfl]
        apply ih
        intro hp
        exact h ((List.prefix_cons_inj c).mpr hp)
      · rw [if_neg hc]

theorem stopsAt_no_run (p : UInt8 → Bool) (s : Bytes) (hs : stopsAt p s = true)
    (u v : Bytes) (hu : u ≠ []) (huv : s = u ++ v) (hpu : ∀ b ∈ u, p b = true) : False := by
  cases u with
  | nil => exact hu rfl
  | cons c u =>
    subst huv
    have := hpu c (List.mem_cons_self _ _)
    simp [stopsAt, this] at hs

theorem plus_det (p : UInt8 → Bool) (r : List Item) (run s : Bytes) (x : List Bytes × Bytes)
    (hne : run ≠ []) (hrun : ∀ b ∈ run, p b = true) (hs : stopsAt p s = true)
    (h : matchHere r s = some x) : matchHere (.plus p :: r) (run ++ s) = some x := by
  rw [matchHere]
  exact plusK_commit p _ x run s hne hrun
    (fun u v hu huv hpu => (stopsAt_no_run p s hs u v hu huv hpu).elim) h

theorem cap_bt (name : String) (p : UInt8 → Bool) (r : List Item) (run s : Bytes)
    (caps : List Bytes) (rest : Bytes)
    (hne : run ≠ []) (hrun : ∀ b ∈ run, p b = true)
    (hlong : ∀ u v, u ≠ [] → s = u ++ v → matchHere r v = none)
    (h : matchHere r s = some (caps, rest)) :
    matchHere (.cap name p :: r) (run ++ s) = some (run :: caps, rest) := by
  rw [matchHere]
  refine plusK_commit p _ _ run s hne hrun ?_ (by simp [h])
  intro u v hu huv _
  simp [hlong u v hu huv]

theorem cap_det (name : String) (p : UInt8 → Bool) (r : List Item) (run s : Bytes)
    (caps : List Bytes) (rest : Bytes)
    (hne : run ≠ []) (hrun : ∀ b ∈ run, p b = true) (hs : stopsAt p s = true)
    (h : matchHere r s = some (caps, rest)) :
    matchHere (.cap name p :: r) (run ++ s) = some (run :: caps, rest) := by
  rw [matchHere]
  refine plusK_commit p _ _ run s hne hrun ?_ (by simp [h])
  intro u v hu huv hpu
  exact (stopsAt_no_run p s hs u v hu huv hpu).elim

/-- The step `\s*\n` in front of a label that starts a new line. -/
theorem star_label (w : String) (r : List Item) (t : Bytes)
    (h : (bs w).head? = some 10 ∧ (bs w).tail ≠ [] ∧ stopsAt isSpace (bs w).tail = true) :
    matchHere (.star isSpace :: (lits w ++ r)) (bs w ++ t) = matchHere r t := by
  obtain ⟨c, w', hw, hc⟩ : ∃ c w', bs w = 10 :: c :: w' ∧ isSpace c = false := by
    obtain ⟨h1, h2, h3⟩ := h
    cases hb : bs w with
    | nil => rw [hb] at h1; cases h1
    | cons a l =>
      rw [hb] at h1 h2 h3
      simp only [List.head?_cons, Option.some.injEq] at h1
      subst h1
      cases l with
      | nil => exact absurd rfl h2
      | cons c l => exact ⟨c, l, rfl, by simpa [stopsAt] using h3⟩
  have hne : c ≠ 10 := by
    rintro rfl
    revert hc
    decide
  have h10 : isSpace 10 = true := by decide
  rw [matchHere, ← matchHere_lits w r t]
  simp only [lits, hw, List.cons_append, List.map_cons, starK, h10, if_true, hc,
    Bool.false_eq_true, if_false, matchHere, if_neg hne]

theorem stopsAt_append (p q : UInt8 → Bool) (a t : Bytes) (hne : a ≠ [])
    (ha : ∀ b ∈ a, q b = true) (hpq : ∀ b, q b = true → p b = false) :
    stopsAt p (a ++ t) = true := by
  cases a with
  | nil => exact absurd rfl hne
  | cons c a => simp [stopsAt, hpq c (ha c (List.mem_cons_self _ _))]

theorem stopsAt_append_head (p : UInt8 → Bool) (a t : Bytes) (hne : a ≠ [])
    (ha : stopsAt p a = true) : stopsAt p (a ++ t) = true := by
  cases a with
  | nil => exact absurd rfl hne
  | cons c a => simpa [stopsAt] using ha

theorem isDigit_not_space (b : UInt8) (h : isDigit b = true) : isSpace b = false := by
  simp only [isDigit, isSpace, Bool.and_eq_true, decide_eq_true_eq] at h ⊢
  simp only [Bool.or_eq_false_iff, decide_eq_false_iff_not]
  omega

theorem isWord_not_space (b : UInt8) (h : isWord b = true) : isSpace b = false := by
  simp only [isWord, isSpace, Bool.and_eq_true, Bool.or_eq_true, decide_eq_true_eq] at h ⊢
  simp only [Bool.or_eq_false_iff, decide_eq_false_iff_not]
  omega

theorem isRingChar_not_space (b : UInt8) (h : isRingChar b = true) : isSpace b = false := by
  simp only [isRingChar, isWord, isDigit, isSpace, Bool.and_eq_true, Bool.or_eq_true,
    decide_eq_true_eq] at h ⊢
  simp only [Bool.or_eq_false_iff, decide_eq_false_iff_not]
  omega

theorem pad_ne_nil (k : Nat) (h : 0 < k) : pad k ≠ [] := by
  cases k with
  | zero => omega
  | succ k => simp [pad, List.replicate]

theorem pad_isSpace (k : Nat) : ∀ b ∈ pad k, isSpace b = true := by
  intro b hb
  rw [List.eq_of_mem_replicate hb]
  decide

theorem findAllAux_head (re : List Item) (s : Bytes) (m : List Bytes) (hs : s ≠ [])
    (h : submatchHere re s = some m) : ∃ rest, findAllAux re 0 s = m :: rest := by
  cases s with
  | nil => exact absurd rfl hs
  | cons b t =>
    exact ⟨findAllAux re ((m.headD []).length - 1) t, by simp only [findAllAux, h]⟩

theorem FindAllSubmatch_head (re : List Item) (s : Bytes) (caps : List Bytes) (rest : Bytes)
    (hs : s ≠ []) (h : matchHere re s = some (caps, rest)) :
    ∃ whole more, FindAllSubmatch re s = (whole :: caps) :: more := by
  obtain ⟨more, hm⟩ := findAllAux_head re s (s.take (s.length - rest.length) :: caps) hs
    (by simp [submatchHere, h])
  exact ⟨_, more, hm⟩

/-! ## Round trip of the vote-tally block -/

theorem voteText_match (e h t q : Nat) (f : Bytes)
    (hf : f ≠ [] ∧ ∀ b ∈ f, isWord b = true) :
    matchHere voteqorumInfoRE (voteText e h t q f) =
      some ([decimal e, decimal h, decimal t, decimal q, f], bs "\n") := by
  unfold voteqorumInfoRE voteText
  simp only [List.append_assoc, List.cons_append, List.nil_append]
  rw [matchHere_lits]
  refine plus_det _ _ _ _ _ (pad_ne_nil _ (by decide)) (pad_isSpace _)
    (stopsAt_append _ _ _ _ (decimal_ne_nil e) (decimal_isDigit e) isDigit_not_space) ?_
  refine cap_det _ _ _ _ _ _ _ (decimal_ne_nil e) (decimal_isDigit e)
    (stopsAt_append_head _ _ _ (by decide) (by decide)) ?_
  rw [star_label "\nHighest expected:" _ _ (by decide)]
  refine plus_det _ _ _ _ _ (pad_ne_nil _ (by decide)) (pad_isSpace _)
    (stopsAt_append _ _ _ _ (decimal_ne_nil h) (decimal_isDigit h) isDigit_not_space) ?_
  refine cap_det _ _ _ _ _ _ _ (decimal_ne_nil h) (decimal_isDigit h)
    (stopsAt_append_head _ _ _ (by decide) (by decide)) ?_
  rw [star_label "\nTotal votes:" _ _ (by decide)]
  refine plus_det _ _ _ _ _ (pad_ne_nil _ (by decide)) (pad_isSpace _)
    (stopsAt_append _ _ _ _ (decimal_ne_nil t) (decimal_isDigit t) isDigit_not_space) ?_
  refine cap_det _ _ _ _ _ _ _ (decimal_ne_nil t) (decimal_isDigit t)
    (stopsAt_append_head _ _ _ (by decide) (by decide)) ?_
  rw [star_label "\nQuorum:" _ _ (by decide)]
  refine plus_det _ _ _ _ _ (pad_ne_nil _ (by decide)) (pad_isSpace _)
    (stopsAt_append _ _ _ _ (decimal_ne_nil q) (decimal_isDigit q) isDigit_not_space) ?_
  refine cap_det _ _ _ _ _ _ _ (decimal_ne_nil q) (decimal_isDigit q)
    (stopsAt_append_head _ _ _ (by decide) (by decide)) ?_
  rw [star_label "\nFlags:" _ _ (by decide)]
  refine plus_det _ _ _ _ _ (pad_ne_nil _ (by decide)) (pad_isSpace _)
    (stopsAt_append _ _ _ _ hf.1 hf.2 isWord_not_space) ?_
  refine cap_det _ _ _ _ _ _ _ hf.1 hf.2 (by decide) ?_
  rfl

theorem voteText_ne_nil (e h t q : Nat) (f : Bytes) : voteText e h t q f ≠ [] := by
  unfold voteText
  have : bs "Expected votes:" ≠ [] := by decide
  simp [this]

/-- C10: round trip of the vote tally.  For all e, h, t, q below 2^32 and
every flag word f, parsing the five lines Expected votes: e, Highest
expected: h, Total votes: t, Quorum: q, Flags: f (numbers in decimal) returns
no error and yields expectedVotes = e, highestExpected = h, totalVotes = t and
quorum = q (and the one flag f). -/
theorem parseVotequorumInfo_roundtrip (s : votequorumStatus) (e h t q : Nat) (f : Bytes)
    (he : e < 2 ^ 32) (hh : h < 2 ^ 32) (ht : t < 2 ^ 32) (hq : q < 2 ^ 32)
    (hf : f ≠ [] ∧ ∀ b ∈ f, isWord b = true) :
    parseVotequorumInfo s (voteText e h t q f) =
      .ret { expectedVotes := e, highestExpected := h, totalVotes := t, quorum := q,
             flags := [f] } none := by
  obtain ⟨whole, more, hfind⟩ := FindAllSubmatch_head voteqorumInfoRE _ _ _
    (voteText_ne_nil e h t q f) (voteText_match e h t q f hf)
  have hsplit : Split f 32 = [f] := by
    have := splitAux_no_sep 32 f [] (fun b hb => isWord_ne_space b (hf.2 b hb))
    simpa [Split] using this
  simp only [parseVotequorumInfo, hfind, List.getElem?_cons_zero, List.getElem?_cons_succ,
    ParseUint_decimal _ 32 (by decide) he, ParseUint_decimal _ 32 (by decide) hh,
    ParseUint_decimal _ 32 (by decide) ht, ParseUint_decimal _ 32 (by decide) hq, hsplit]

/-- C10 at the tally 2, 2, 2, 1 with the flag "Quorate". -/
theorem parseVotequorumInfo_roundtrip_witness :
    parseVotequorumInfo votequorumStatus.zero (voteText 2 2 2 1 (bs "Quorate")) =
      .ret { expectedVotes := 2, highestExpected := 2, totalVotes := 2, quorum := 1,
             flags := [bs "Quorate"] } none :=
  parseVotequorumInfo_roundtrip votequorumStatus.zero 2 2 2 1 (bs "Quorate")
    (by decide) (by decide) (by decide) (by decide) ⟨by decide, by decide⟩

/-! ## Round trip of the quorum block -/

theorem noOcc_short (w t : Bytes) (h : t.length < w.length) : NoOcc w t := by
  intro v hv hw
  have h1 := hv.length_le
  have h2 := hw.length_le
  omega

theorem noOcc_cons (w : Bytes) (b : UInt8) (t : Bytes) (hb : ¬ w <+: b :: t)
    (ht : NoOcc w t) : NoOcc w (b :: t) := by
  intro v hv
  rcases List.suffix_cons_iff.mp hv with rfl | hv
  · exact hb
  · exact ht v hv

theorem not_prefix_of_head (w : Bytes) (c b : UInt8) (t : Bytes) (hc : w.head? = some c)
    (hb : b ≠ c) : ¬ w <+: b :: t := by
  intro hp
  cases w with
  | nil => cases hc
  | cons a w =>
    simp only [List.head?_cons, Option.some.injEq] at hc
    subst hc
    obtain ⟨x, hx⟩ := hp
    simp only [List.cons_append, List.cons.injEq] at hx
    exact hb hx.1.symm

/-- A stretch without the first byte of the pattern holds no start of it. -/
theorem noOcc_append_ne (w a t : Bytes) (c : UInt8) (hc : w.head? = some c)
    (ha : ∀ b ∈ a, b ≠ c) (ht : NoOcc w t) : NoOcc w (a ++ t) := by
  induction a with
  | nil => exact ht
  | cons b a ih =>
    exact noOcc_cons w b (a ++ t)
      (not_prefix_of_head w c b _ hc (ha b (List.mem_cons_self _ _)))
      (ih (fun x hx => ha x (List.mem_cons_of_mem _ hx)))

/-- A label that differs from the start of the pattern and has the first byte
of the pattern at most at its head holds no start of it. -/
theorem noOcc_label (w L t : Bytes) (c : UInt8) (hc : w.head? = some c)
    (h : L ≠ [] ∧ L.length ≤ w.length ∧ w.take L.length ≠ L ∧ ∀ b ∈ L.tail, b ≠ c)
    (ht : NoOcc w t) : NoOcc w (L ++ t) := by
  obtain ⟨hne, hlen, hmis, htail⟩ := h
  cases L with
  | nil => exact absurd rfl hne
  | cons l0 L =>
    refine noOcc_cons w l0 (L ++ t) ?_ (noOcc_append_ne w L t c hc htail ht)
    intro hp
    have hL : (l0 :: L) <+: (l0 :: L) ++ t := List.prefix_append _ _
    have := List.prefix_of_prefix_length_le hL hp hlen
    exact hmis (List.prefix_iff_eq_take.mp this).symm

/-- After a nonempty step into `bs w ++ rest` the pattern that starts with
the literal `w` fails, when `w` occurs nowhere later. -/
theorem later_none (w : String) (r : List Item) (rest : Bytes) (c : UInt8)
    (hc : (bs w).head? = some c) (hw : ∀ b ∈ (bs w).tail, b ≠ c) (h : NoOcc (bs w) rest) :
    ∀ u v, u ≠ [] → bs w ++ rest = u ++ v → matchHere (lits w ++ r) v = none := by
  intro u v hu huv
  apply matchHere_map_lit_none
  have hno : NoOcc (bs w) ((bs w).tail ++ rest) := noOcc_append_ne _ _ _ c hc hw h
  apply hno
  cases hb : bs w with
  | nil => rw [hb] at hc; cases hc
  | cons a l =>
    rw [hb] at huv
    cases u with
    | nil => exact absurd rfl hu
    | cons x u =>
      simp only [List.cons_append, List.cons.injEq] at huv
      simp only [List.tail_cons]
      exact ⟨u, huv.2.symm⟩

theorem isWord_ne_nl (b : UInt8) (h : isWord b = true) : b ≠ 10 := by
  rintro rfl; revert h; decide

theorem isDigit_ne_nl (b : UInt8) (h : isDigit b = true) : b ≠ 10 := by
  rintro rfl; revert h; decide

theorem isRingChar_ne_nl (b : UInt8) (h : isRingChar b = true) : b ≠ 10 := by
  rintro rfl; revert h; decide

theorem pad_ne_nl (k : Nat) : ∀ b ∈ pad k, b ≠ 10 := by
  intro b hb
  rw [List.eq_of_mem_replicate hb]
  decide

theorem quorumText_match (date provider : Bytes) (n i : Nat) (r q : Bytes)
    (hdate : date ≠ [] ∧ (∀ b ∈ date, isDateChar b = true) ∧ stopsAt isSpace date = true)
    (hprov : provider ≠ [] ∧ ∀ b ∈ provider, isWord b = true)
    (hr : r ≠ [] ∧ ∀ b ∈ r, isRingChar b = true)
    (hq : q = bs "Yes" ∨ q = bs "No") :
    matchHere quorumRE (quorumText date provider n i r q) =
      some ([date, provider, decimal n, decimal i, r, q], bs "\n") := by
  have hqw : q ≠ [] ∧ ∀ b ∈ q, isWord b = true := by
    rcases hq with rfl | rfl <;> exact ⟨by decide, by decide⟩
  unfold quorumRE quorumText
  simp only [List.append_assoc, List.cons_append, List.nil_append]
  rw [matchHere_lits]
  refine plus_det _ _ _ _ _ (pad_ne_nil _ (by decide)) (pad_isSpace _)
    (stopsAt_append_head _ _ _ hdate.1 hdate.2.2) ?_
  refine cap_bt _ _ _ _ _ _ _ hdate.1 hdate.2.1 ?_ ?_
  · refine later_none "\nQuorum provider:" _ _ 10 (by decide) (by decide) ?_
    refine noOcc_append_ne _ _ _ 10 (by decide) (pad_ne_nl _) ?_
    refine noOcc_append_ne _ _ _ 10 (by decide) (fun b hb => isWord_ne_nl b (hprov.2 b hb)) ?_
    refine noOcc_label _ (bs "\nNodes:") _ 10 (by decide) (by decide) ?_
    refine noOcc_append_ne _ _ _ 10 (by decide) (pad_ne_nl _) ?_
    refine noOcc_append_ne _ _ _ 10 (by decide)
      (fun b hb => isDigit_ne_nl b (decimal_isDigit n b hb)) ?_
    refine noOcc_label _ (bs "\nNode ID:") _ 10 (by decide) (by decide) ?_
    refine noOcc_append_ne _ _ _ 10 (by decide) (pad_ne_nl _) ?_
    refine noOcc_append_ne _ _ _ 10 (by decide)
      (fun b hb => isDigit_ne_nl b (decimal_isDigit i b hb)) ?_
    refine noOcc_label _ (bs "\nRing ID:") _ 10 (by decide) (by decide) ?_
    refine noOcc_append_ne _ _ _ 10 (by decide) (pad_ne_nl _) ?_
    refine noOcc_append_ne _ _ _ 10 (by decide) (fun b hb => isRingChar_ne_nl b (hr.2 b hb)) ?_
    refine noOcc_label _ (bs "\nQuorate:") _ 10 (by decide) (by decide) ?_
    refine noOcc_append_ne _ _ _ 10 (by decide) (pad_ne_nl _) ?_
    refine noOcc_append_ne _ _ _ 10 (by decide) (fun b hb => isWord_ne_nl b (hqw.2 b hb)) ?_
    exact noOcc_short _ _ (by decide)
  rw [matchHere_lits]
  refine plus_det _ _ _ _ _ (pad_ne_nil _ (by decide)) (pad_isSpace _)
    (stopsAt_append _ _ _ _ hprov.1 hprov.2 isWord_not_space) ?_
  refine cap_det _ _ _ _ _ _ _ hprov.1 hprov.2
    (stopsAt_append_head _ _ _ (by decide) (by decide)) ?_
  rw [matchHere_lits]
  refine plus_det _ _ _ _ _ (pad_ne_nil _ (by decide)) (pad_isSpace _)
    (stopsAt_append _ _ _ _ (decimal_ne_nil n) (decimal_isDigit n) isDigit_not_space) ?_
  refine cap_det _ _ _ _ _ _ _ (decimal_ne_nil n) (decimal_isDigit n)
    (stopsAt_append_head _ _ _ (by decide) (by decide)) ?_
  rw [matchHere_lits]
  refine plus_det _ _ _ _ _ (pad_ne_nil _ (by decide)) (pad_isSpace _)
    (stopsAt_append _ _ _ _ (decimal_ne_nil i) (decimal_isDigit i) isDigit_not_space) ?_
  refine cap_det _ _ _ _ _ _ _ (decimal_ne_nil i) (decimal_isDigit i)
    (stopsAt_append_head _ _ _ (by decide) (by decide)) ?_
  rw [matchHere_lits]
  refine plus_det _ _ _ _ _ (pad_ne_nil _ (by decide)) (pad_isSpace _)
    (stopsAt_append _ _ _ _ hr.1 hr.2 isRingChar_not_space) ?_
  refine cap_det _ _ _ _ _ _ _ hr.1 hr.2
    (stopsAt_append_head _ _ _ (by decide) (by decide)) ?_
  rw [matchHere_lits]
  refine plus_det _ _ _ _ _ (pad_ne_nil _ (by decide)) (pad_isSpace _)
    (stopsAt_append _ _ _ _ hqw.1 hqw.2 isWord_not_space) ?_
  refine cap_det _ _ _ _ _ _ _ hqw.1 hqw.2 (by decide) ?_
  rfl

theorem quorumText_ne_nil (date provider : Bytes) (n i : Nat) (r q : Bytes) :
    quorumText date provider n i r q ≠ [] := by
  unfold quorumText
  have : bs "Date:" ≠ [] := by decide
  simp [this]

/-- C9: round trip of the quorum block.  For every node count n < 2^32, node
id i < 2^32, non-empty ring-id token r of word characters and dots, and q in
"Yes", "No", parsing the text laid out as the Date, Quorum provider, Nodes,
Node ID, Ring ID, Quorate lines with n and i in decimal returns no error and
yields totalNodes = n, nodeId = i, ringId = r, isQuorate = (q = "Yes"). -/
theorem parseQuorumStatus_roundtrip (s : quorumStatus) (date provider : Bytes) (n i : Nat)
    (r q : Bytes)
    (hdate : date ≠ [] ∧ (∀ b ∈ date, isDateChar b = true) ∧ stopsAt isSpace date = true)
    (hprov : provider ≠ [] ∧ ∀ b ∈ provider, isWord b = true)
    (hn : n < 2 ^ 32) (hi : i < 2 ^ 32)
    (hr : r ≠ [] ∧ ∀ b ∈ r, isRingChar b = true)
    (hq : q = bs "Yes" ∨ q = bs "No") :
    parseQuorumStatus s (quorumText date provider n i r q) =
      .ret { nodeId := i, ringId := r, isQuorate := decide (q = bs "Yes"), totalNodes := n }
        none := by
  obtain ⟨whole, more, hfind⟩ := FindAllSubmatch_head quorumRE _ _ _
    (quorumText_ne_nil date provider n i r q)
    (quorumText_match date provider n i r q hdate hprov hr hq)
  simp only [parseQuorumStatus, hfind, List.getElem?_cons_zero, List.getElem?_cons_succ,
    ParseUint_decimal _ 32 (by decide) hn, ParseUint_decimal _ 32 (by decide) hi]
  rcases hq with rfl | rfl
  · simp
  · have : bs "No" ≠ bs "Yes" := by decide
    simp [this]

/-- C9 at a two-node cluster: n = 2, i = 1, r = "1.1f", q = "Yes". -/
theorem parseQuorumStatus_roundtrip_witness :
    parseQuorumStatus quorumStatus.zero
        (quorumText (bs "Sun Sep 18 13:10:11 2022") (bs "corosync_votequorum") 2 1
          (bs "1.1f") (bs "Yes")) =
      .ret { nodeId := 1, ringId := bs "1.1f", isQuorate := true, totalNodes := 2 } none :=
  parseQuorumStatus_roundtrip quorumStatus.zero (bs "Sun Sep 18 13:10:11 2022")
    (bs "corosync_votequorum") 2 1 (bs "1.1f") (bs "Yes")
    ⟨by decide, by decide, by decide⟩ ⟨by decide, by decide⟩ (by decide) (by decide)
    ⟨by decide, by decide⟩ (Or.inl rfl)


/-! ## How a collection cycle ends -/

/-- The quorum parser never panics: every match has its seven submatches. -/
theorem parseQuorumStatus_ne_panic (s : quorumStatus) (output : Bytes) :
    parseQuorumStatus s output ≠ .panic := by
  cases hf : FindAllSubmatch quorumRE output with
  | nil => simp [parseQuorumStatus, hf]
  | cons m rest =>
    have hm : HasMatch quorumRE output := hasMatch_of_find _ _ (by rw [hf]; simp)
    obtain ⟨whole, c1, c2, c3, c4, c5, c6, rest', hm', _⟩ := quorum_first_match output hm
    simp only [parseQuorumStatus, hm', List.getElem?_cons_succ, List.getElem?_cons_zero]
    cases ParseUint c3 32 <;> simp only
    · simp
    cases ParseUint c4 32 <;> simp only
    · simp
    split_ifs <;> simp

/-- The ring parser never panics. -/
theorem parseRingStatus_ne_panic (s : nodeStatus) (output : Bytes) :
    parseRingStatus s output ≠ .panic := by
  have hshape := rings_all_RingMatch output
  by_cases hall : ∀ m ∈ FindAllSubmatch ringsRE output, digitsValue (m.getD 1 []) < 2 ^ 64
  · rw [parseRingStatus, parseRingStatusLoop_ok _ s hshape hall]; simp
  · have hex : ∃ m ∈ FindAllSubmatch ringsRE output, 2 ^ 64 ≤ digitsValue (m.getD 1 []) := by
      by_contra hc
      apply hall
      intro m hm
      by_contra hv
      exact hc ⟨m, hm, by omega⟩
    obtain ⟨s', e, herr⟩ := parseRingStatusLoop_err _ s hshape hex
    rw [parseRingStatus, herr]; simp

/-- The ring parser leaves the quorum and vote-tally records alone. -/
theorem parseRingStatusLoop_frame : ∀ (ms : List (List Bytes)) (s s' : nodeStatus)
    (e : Option Error), parseRingStatusLoop s ms = .ret s' e →
    s'.quorum = s.quorum ∧ s'.votequorum = s.votequorum := by
  intro ms
  induction ms with
  | nil =>
    intro s s' e h
    simp only [parseRingStatusLoop, Outcome.ret.injEq] at h
    rw [← h.1]; exact ⟨rfl, rfl⟩
  | cons m ms ih =>
    intro s s' e h
    rw [parseRingStatusLoop] at h
    cases hx : extractCapturedGroups (SubexpNames ringsRE) m with
    | none => rw [hx] at h; cases h
    | some nm =>
      rw [hx] at h
      simp only at h
      cases hp : ParseUint (lookup nm "id") 64 with
      | error err =>
        rw [hp] at h
        simp only [Outcome.ret.injEq] at h
        rw [← h.1]; exact ⟨rfl, rfl⟩
      | ok id =>
        rw [hp] at h
        simp only at h
        have := ih _ s' e h
        simpa using this

/-- Every way `Gather` can end: an error with the accumulator untouched, a
panic (only when the vote-tally parser panics), or the full emission. -/
theorem Gather_cases (cmd : String) (A B : Bytes × Option Error) (acc : List Point) :
    (∃ e, Gather cmd A B acc = .ret acc (some e)) ∨
    (Gather cmd A B acc = .panic ∧ A.2 = none ∧ B.2 = none ∧
      (∃ q, parseQuorumStatus quorumStatus.zero A.1 = .ret q none) ∧
      parseVotequorumInfo votequorumStatus.zero A.1 = .panic) ∨
    (∃ q v st, A.2 = none ∧ B.2 = none ∧
      parseQuorumStatus quorumStatus.zero A.1 = .ret q none ∧
      parseVotequorumInfo votequorumStatus.zero A.1 = .ret v none ∧
      parseRingStatus { quorum := q, votequorum := v, rings := [] } B.1 = .ret st none ∧
      Gather cmd A B acc = .ret (acc ++ [quorumGauge st] ++ st.rings.map ringGauge) none) := by
  obtain ⟨outA, errA⟩ := A
  obtain ⟨outB, errB⟩ := B
  cases errA with
  | some e =>
    exact Or.inl ⟨.wrap ("command " ++ cmd ++ " failed") e, by simp only [Gather]⟩
  | none =>
    cases errB with
    | some e =>
      exact Or.inl ⟨.wrap "corosync-cfgtool encountered an error" e, by simp only [Gather]⟩
    | none =>
      have hq0 : parseQuorumStatus
          { nodeId := 0, ringId := [], isQuorate := false, totalNodes := 0 } outA =
          parseQuorumStatus quorumStatus.zero outA := rfl
      have hv0 : parseVotequorumInfo
          { totalVotes := 0, expectedVotes := 0, highestExpected := 0, quorum := 0,
            flags := [] } outA = parseVotequorumInfo votequorumStatus.zero outA := rfl
      cases hq : parseQuorumStatus quorumStatus.zero outA with
      | panic => exact absurd hq (parseQuorumStatus_ne_panic _ _)
      | ret q eq =>
        cases eq with
        | some e =>
          exact Or.inl ⟨.wrap "unable to parse corosync-quorumtool Quorum output" e,
            by simp only [Gather, hq0, hq]⟩
        | none =>
          cases hv : parseVotequorumInfo votequorumStatus.zero outA with
          | panic =>
            exact Or.inr (Or.inl ⟨by simp only [Gather, hq0, hv0, hq, hv], rfl, rfl, ⟨q, rfl⟩, rfl⟩)
          | ret v ev =>
            cases ev with
            | some e =>
              exact Or.inl ⟨.wrap "unable to parse corosync-quorumtool Votequorum output" e,
                by simp only [Gather, hq0, hv0, hq, hv]⟩
            | none =>
              cases hr : parseRingStatus { quorum := q, votequorum := v, rings := [] } outB with
              | panic => exact absurd hr (parseRingStatus_ne_panic _ _)
              | ret st er =>
                cases er with
                | some e =>
                  exact Or.inl ⟨.wrap "unable to parse corosync-cfgtool output" e,
                    by simp only [Gather, hq0, hv0, hq, hv, hr]⟩
                | none =>
                  exact Or.inr (Or.inr ⟨q, v, st, rfl, rfl, rfl, rfl, hr,
                    by simp only [Gather, hq0, hv0, hq, hv, hr]⟩)

/-- Whenever the tool-A run, the tool-B run, the quorum parse or the
vote-tally parse returns an error, `Gather` returns an error and has added no
metric point to the accumulator. -/
theorem Gather_error_of_step_error (cmd : String) (A B : Bytes × Option Error)
    (acc : List Point)
    (h : A.2 ≠ none ∨ B.2 ≠ none ∨
      (∃ q e, parseQuorumStatus quorumStatus.zero A.1 = .ret q (some e)) ∨
      (∃ v e, parseVotequorumInfo votequorumStatus.zero A.1 = .ret v (some e))) :
    ∃ e, Gather cmd A B acc = .ret acc (some e) := by
  rcases Gather_cases cmd A B acc with h1 | ⟨_, hA, hB, ⟨q, hq⟩, hv⟩ | ⟨q, v, st, hA, hB, hq, hv, _, _⟩
  · exact h1
  · rcases h with h | h | ⟨q', e, h⟩ | ⟨v', e, h⟩
    · exact absurd hA h
    · exact absurd hB h
    · rw [hq] at h; cases h
    · rw [hv] at h; cases h
  · rcases h with h | h | ⟨q', e, h⟩ | ⟨v', e, h⟩
    · exact absurd hA h
    · exact absurd hB h
    · rw [hq] at h; cases h
    · rw [hv] at h; cases h

/-- C11 (code defect, the one of C4): on `sampleInquorate` both runs and the
quorum parse succeed and the vote-tally parse fails, the output holding no
vote-tally block; yet `Gather` returns no error, it panics.  Whenever one of
the four steps returns an error, `Gather` does return an error, and the
accumulator is as it was. -/
theorem Gather_panics_without_vote_block :
    parseQuorumStatus quorumStatus.zero sampleInquorate =
        .ret { nodeId := 1, ringId := bs "1.23", isQuorate := false, totalNodes := 1 } none ∧
      ¬ HasMatch voteqorumInfoRE sampleInquorate ∧
      Gather "corosync-quorumtool" (sampleInquorate, none) (sampleLinks, none) [] = .panic ∧
      ∀ (cmd : String) (A B : Bytes × Option Error) (acc : List Point),
        (A.2 ≠ none ∨ B.2 ≠ none ∨
          (∃ q e, parseQuorumStatus quorumStatus.zero A.1 = .ret q (some e)) ∨
          (∃ v e, parseVotequorumInfo votequorumStatus.zero A.1 = .ret v (some e))) →
        ∃ e, Gather cmd A B acc = .ret acc (some e) :=
  ⟨by decide!, not_hasMatch_of_find _ _ (by decide!), by decide!, Gather_error_of_step_error⟩

/-- The accumulator is untouched on a cycle whose quorum parse returns an
error (`sampleMaybe`) and on a cycle whose vote-tally parse returns an error
(`sampleManyVotes`). -/
theorem Gather_error_of_step_error_samples :
    (∃ e, Gather "corosync-quorumtool" (sampleMaybe, none) (sampleLinks, none) [] =
      .ret [] (some e)) ∧
    (∃ e, Gather "corosync-quorumtool" (sampleManyVotes, none) (sampleLinks, none) [] =
      .ret [] (some e)) :=
  ⟨Gather_error_of_step_error "corosync-quorumtool" (sampleMaybe, none) (sampleLinks, none) []
      (Or.inr (Or.inr (Or.inl
        ⟨{ nodeId := 1, ringId := bs "1.1f", isQuorate := false, totalNodes := 2 },
          .new "unable to parse quorum status", by decide!⟩))),
    Gather_error_of_step_error "corosync-quorumtool" (sampleManyVotes, none)
      (sampleLinks, none) []
      (Or.inr (Or.inr (Or.inr
        ⟨votequorumStatus.zero,
          .wrap "unable to parse total votes into uint"
            (.numError "ParseUint" (bs "4294967296") ErrRange), by decide!⟩)))⟩

/-- What the ring parser returns when it returns no error: the rings of the
matches appended, the other records untouched. -/
theorem parseRingStatus_ok_rings (s s' : nodeStatus) (output : Bytes)
    (h : parseRingStatus s output = .ret s' none) :
    s' = { s with rings := s.rings ++ (FindAllSubmatch ringsRE output).map ringOf } := by
  have hshape := rings_all_RingMatch output
  by_cases hall : ∀ m ∈ FindAllSubmatch ringsRE output, digitsValue (m.getD 1 []) < 2 ^ 64
  · rw [parseRingStatus, parseRingStatusLoop_ok _ s hshape hall] at h
    simp only [Outcome.ret.injEq, and_true] at h
    exact h.symm
  · have hex : ∃ m ∈ FindAllSubmatch ringsRE output, 2 ^ 64 ≤ digitsValue (m.getD 1 []) := by
      by_contra hc
      apply hall
      intro m hm
      by_contra hv
      exact hc ⟨m, hm, by omega⟩
    obtain ⟨s'', e, herr⟩ := parseRingStatusLoop_err _ s hshape hex
    rw [parseRingStatus, herr] at h
    cases h

/-- C12: when both runs and all three parses succeed, `Gather` adds exactly
one `corosync_quorum` gauge tagged node_id = the node id in decimal, followed
by exactly one `corosync_rings` gauge per parsed ring in ring order, each
tagged ring_id = the ring id in decimal and carrying active, connected,
enabled, unknown, undefined equal to slots 0..4 of the tally of the ring and
total equal to the byte length of its raw status string minus one. -/
theorem Gather_emits (cmd : String) (A B : Bytes × Option Error) (acc : List Point)
    (q : quorumStatus) (v : votequorumStatus) (st : nodeStatus)
    (hA : A.2 = none) (hB : B.2 = none)
    (hq : parseQuorumStatus quorumStatus.zero A.1 = .ret q none)
    (hv : parseVotequorumInfo votequorumStatus.zero A.1 = .ret v none)
    (hr : parseRingStatus { quorum := q, votequorum := v, rings := [] } B.1 = .ret st none) :
    Gather cmd A B acc =
      .ret (acc ++
        [{ measurement := "corosync_quorum",
           fields :=
             [("is_quorate", .bool q.isQuorate), ("total_nodes", .uint q.totalNodes),
              ("ring_id", .str q.ringId), ("total_votes", .uint v.totalVotes),
              ("expected_votes", .uint v.expectedVotes),
              ("highest_expected", .uint v.highestExpected), ("quorum", .uint v.quorum)],
           tags := [("node_id", decimal q.nodeId)] }] ++
        st.rings.map (fun ring =>
          { measurement := "corosync_rings",
            fields :=
              [("active", .uint (ring.linkCount.getD 0 0)),
               ("connected", .uint (ring.linkCount.getD 1 0)),
               ("enabled", .uint (ring.linkCount.getD 2 0)),
               ("unknown", .uint (ring.linkCount.getD 3 0)),
               ("undefined", .uint (ring.linkCount.getD 4 0)),
               ("total", .int ((ring.status.length : Int) - 1))],
            tags := [("ring_id", decimal ring.ringId)] })) none ∧
      st.rings = (FindAllSubmatch ringsRE B.1).map ringOf := by
  have hst := parseRingStatus_ok_rings _ _ _ hr
  rcases Gather_cases cmd A B acc with ⟨e, h1⟩ | ⟨_, _, _, _, hp⟩ | ⟨q', v', st', _, _, hq', hv', hr', hG⟩
  · exfalso
    obtain ⟨outA, errA⟩ := A
    obtain ⟨outB, errB⟩ := B
    simp only at hA hB hq hv hr
    subst hA hB
    have hq0 : parseQuorumStatus
        { nodeId := 0, ringId := [], isQuorate := false, totalNodes := 0 } outA =
        parseQuorumStatus quorumStatus.zero outA := rfl
    have hv0 : parseVotequorumInfo
        { totalVotes := 0, expectedVotes := 0, highestExpected := 0, quorum := 0,
          flags := [] } outA = parseVotequorumInfo votequorumStatus.zero outA := rfl
    simp only [Gather, hq0, hv0, hq, hv, hr, Outcome.ret.injEq] at h1
    exact absurd h1.2 (by simp)
  · rw [hv] at hp; cases hp
  · rw [hq] at hq'
    rw [hv] at hv'
    cases hq'
    cases hv'
    rw [hr] at hr'
    cases hr'
    refine ⟨?_, by rw [hst]; simp⟩
    rw [hG]
    have h1 : st.quorum = q := by rw [hst]
    have h2 : st.votequorum = v := by rw [hst]
    simp only [quorumGauge, h1, h2]
    rfl

/-- C12 on the outputs `sampleQuorate` and `sampleLinks`: the quorum gauge of
node 1 and the gauges of rings 0 and 1. -/
theorem Gather_emits_witness :
    Gather "corosync-quorumtool" (sampleQuorate, none) (sampleLinks, none) [] =
      .ret
        [{ measurement := "corosync_quorum",
           fields :=
             [("is_quorate", .bool true), ("total_nodes", .uint 2),
              ("ring_id", .str (bs "1.1f")), ("total_votes", .uint 2),
              ("expected_votes", .uint 2), ("highest_expected", .uint 2),
              ("quorum", .uint 1)],
           tags := [("node_id", bs "1")] },
         { measurement := "corosync_rings",
           fields :=
             [("active", .uint 1), ("connected", .uint 0), ("enabled", .uint 0),
              ("unknown", .uint 0), ("undefined", .uint 0), ("total", .int 1)],
           tags := [("ring_id", bs "0")] },
         { measurement := "corosync_rings",
           fields :=
             [("active", .uint 1), ("connected", .uint 1), ("enabled", .uint 1),
              ("unknown", .uint 1), ("undefined", .uint 0), ("total", .int 4)],
           tags := [("ring_id", bs "1")] }] none :=
  (Gather_emits "corosync-quorumtool" (sampleQuorate, none) (sampleLinks, none) []
    { nodeId := 1, ringId := bs "1.1f", isQuorate := true, totalNodes := 2 }
    { totalVotes := 2, expectedVotes := 2, highestExpected := 2, quorum := 1,
      flags := [bs "Quorate"] }
    { quorum := { nodeId := 1, ringId := bs "1.1f", isQuorate := true, totalNodes := 2 },
      votequorum :=
        { totalVotes := 2, expectedVotes := 2, highestExpected := 2, quorum := 1,
          flags := [bs "Quorate"] },
      rings :=
        [{ address := bs "10.0.0.1", status := bs "n3", protocol := bs "udp", ringId := 0,
           linkCount := [1, 0, 0, 0, 0] },
         { address := bs "10.0.1.1", status := bs "31?n2", protocol := bs "udp", ringId := 1,
           linkCount := [1, 1, 1, 1, 0] }] }
    rfl rfl (by decide!) (by decide!) (by decide!)).1

/-! ## An output without the Ring ID line -/

theorem Matches_append_split : ∀ (a b : List Item) (w : Bytes), Matches (a ++ b) w →
    ∃ u v, w = u ++ v ∧ Matches a u ∧ Matches b v := by
  intro a
  induction a with
  | nil => intro b w h; exact ⟨[], w, rfl, rfl, h⟩
  | cons i a ih =>
    intro b w h
    obtain ⟨u, v, rfl, hi, hv⟩ := h
    obtain ⟨u', v', rfl, ha, hb⟩ := ih b v hv
    exact ⟨u ++ u', v', by rw [List.append_assoc], ⟨u, u', rfl, hi, ha⟩, hb⟩

theorem Matches_map_lit : ∀ (l w : Bytes), Matches (l.map Item.lit) w → w = l := by
  intro l
  induction l with
  | nil => intro w h; exact h
  | cons c l ih =>
    intro w h
    obtain ⟨u, v, rfl, hi, hv⟩ := h
    have hu : u = [c] := hi
    rw [hu, ih v hv]
    rfl

/-- Every text of the language of the quorum pattern holds the label
"Ring ID:" at the start of a line. -/
theorem Matches_quorumRE_ring_label (w : Bytes) (h : Matches quorumRE w) :
    ∃ u v, w = u ++ [10] ++ (bs "Ring ID:" ++ v) := by
  have e : quorumRE =
      (lits "Date:" ++ [.plus isSpace, .cap "" isDateChar] ++
        lits "\nQuorum provider:" ++ [.plus isSpace, .cap "" isWord] ++
        lits "\nNodes:" ++ [.plus isSpace, .cap "" isDigit] ++
        lits "\nNode ID:" ++ [.plus isSpace, .cap "" isDigit]) ++
      (lits "\nRing ID:" ++
        ([.plus isSpace, .cap "" isRingChar] ++ lits "\nQuorate:" ++
          [.plus isSpace, .cap "" isWord])) := by
    simp only [quorumRE, List.append_assoc]
  rw [e] at h
  obtain ⟨u, v, rfl, _, hv⟩ := Matches_append_split _ _ _ h
  obtain ⟨l, v', rfl, hl, _⟩ := Matches_append_split _ _ _ hv
  have := Matches_map_lit _ _ hl
  subst this
  exact ⟨u, v', by
    have : bs "\nRing ID:" = [10] ++ bs "Ring ID:" := by decide
    rw [this]; simp only [List.append_assoc]⟩

theorem hasLine_of_hasMatch_quorumRE (output : Bytes) (h : HasMatch quorumRE output) :
    HasLine (bs "Ring ID:") output := by
  obtain ⟨pre, w, post, rfl, hw⟩ := h
  obtain ⟨u, v, rfl⟩ := Matches_quorumRE_ring_label w hw
  refine ⟨pre ++ u ++ [10], v ++ post, by simp only [List.append_assoc], Or.inr ?_⟩
  simp

/-- The scan finds every line that starts with the label. -/
theorem hasLineAux_complete (label post : Bytes) : ∀ (pre : Bytes) (atStart : Bool),
    (pre = [] → atStart = true) → (pre ≠ [] → pre.getLast? = some 10) →
    hasLineAux label atStart (pre ++ label ++ post) = true := by
  intro pre
  induction pre with
  | nil =>
    intro atStart h1 _
    have hs := h1 rfl
    subst hs
    have hp : label.isPrefixOf (label ++ post) = true :=
      List.isPrefixOf_iff_prefix.mpr (List.prefix_append _ _)
    cases hl : label ++ post with
    | nil =>
      rw [hl] at hp
      simp [hasLineAux, hl, hp]
    | cons b t =>
      rw [hl] at hp
      simp [hasLineAux, hl, hp]
  | cons b pre ih =>
    intro atStart _ h2
    have hlast := h2 (by simp)
    simp only [List.cons_append, hasLineAux, Bool.or_eq_true]
    right
    apply ih
    · intro hpre
      subst hpre
      simpa using hlast
    · intro hpre
      cases pre with
      | nil => exact absurd rfl hpre
      | cons c pre => simpa [List.getLast?_cons_cons] using hlast

theorem not_hasLine_of_scan (label output : Bytes) (h : hasLineAux label true output = false) :
    ¬ HasLine label output := by
  rintro ⟨pre, post, rfl, hpre⟩
  have := hasLineAux_complete label post pre true (fun _ => rfl) (fun hne => by
    rcases hpre with hp | hp
    · exact absurd hp hne
    · exact hp)
  rw [this] at h
  cases h

/-- C13: for every tool-A output that has no "Ring ID" line,
`parseQuorumStatus` returns an error, so a full cycle on that output returns
an error and emits no metric point, whatever the tool runs returned. -/
theorem Gather_without_ring_line (cmd : String) (output : Bytes) (errA : Option Error)
    (B : Bytes × Option Error) (acc : List Point) (s : quorumStatus)
    (h : ¬ HasLine (bs "Ring ID:") output) :
    parseQuorumStatus s output =
        .ret s (some (.new "corosync-quorumtool returned incorrect data")) ∧
      ∃ e, Gather cmd (output, errA) B acc = .ret acc (some e) := by
  have hno : ¬ HasMatch quorumRE output := fun hm => h (hasLine_of_hasMatch_quorumRE output hm)
  have hf := (FindAllSubmatch_eq_nil_iff quorumRE output).mpr hno
  have hp : ∀ t, parseQuorumStatus t output =
      .ret t (some (.new "corosync-quorumtool returned incorrect data")) := by
    intro t
    simp only [parseQuorumStatus, hf]
  refine ⟨hp s, ?_⟩
  rcases Gather_cases cmd (output, errA) B acc with h1 | ⟨_, _, _, ⟨q, hq⟩, _⟩ | ⟨q, v, st, _, _, hq, _⟩
  · exact h1
  · rw [hp] at hq; cases hq
  · rw [hp] at hq; cases hq

/-- C13 on `sampleNoRingId`, a quorum block without its Ring ID line, with a
good tool-B output. -/
theorem Gather_without_ring_line_witness :
    parseQuorumStatus quorumStatus.zero sampleNoRingId =
        .ret quorumStatus.zero (some (.new "corosync-quorumtool returned incorrect data")) ∧
      ∃ e, Gather "corosync-quorumtool" (sampleNoRingId, none) (sampleLinks, none) [] =
        .ret [] (some e) :=
  Gather_without_ring_line "corosync-quorumtool" sampleNoRingId none (sampleLinks, none) []
    quorumStatus.zero (not_hasLine_of_scan _ _ (by decide!))

/-! ## The errors of parseQuorumStatus -/

/-- A Nodes value that does not fit 32 bits gives the total-nodes error. -/
theorem parseQuorumStatus_nodes_range (s : quorumStatus) (output : Bytes)
    (h : HasMatch quorumRE output)
    (hn : 2 ^ 32 ≤ digitsValue (firstCapture quorumRE output 3)) :
    parseQuorumStatus s output =
      .ret s (some (.wrap "unable to parse total nodes into uint"
        (.numError "ParseUint" (firstCapture quorumRE output 3) ErrRange))) := by
  obtain ⟨whole, c1, c2, c3, c4, c5, c6, rest, hm, h3, _, _, _⟩ := quorum_first_match output h
  simp only [firstCapture, hm, List.headD_cons, List.getD_cons_succ, List.getD_cons_zero] at hn ⊢
  have p3 := ParseUint_range c3 32 (by decide) h3.1 h3.2 hn
  simp only [parseQuorumStatus, hm, List.getElem?_cons_succ, List.getElem?_cons_zero, p3]

/-- A Node ID value that does not fit 32 bits, after a Nodes value that does,
gives the Node ID error. -/
theorem parseQuorumStatus_nodeId_range (s : quorumStatus) (output : Bytes)
    (h : HasMatch quorumRE output)
    (hn : digitsValue (firstCapture quorumRE output 3) < 2 ^ 32)
    (hi : 2 ^ 32 ≤ digitsValue (firstCapture quorumRE output 4)) :
    parseQuorumStatus s output =
      .ret { s with totalNodes := digitsValue (firstCapture quorumRE output 3) }
        (some (.wrap "unable to parse Node ID"
          (.numError "ParseUint" (firstCapture quorumRE output 4) ErrRange))) := by
  obtain ⟨whole, c1, c2, c3, c4, c5, c6, rest, hm, h3, h4, _, _⟩ := quorum_first_match output h
  simp only [firstCapture, hm, List.headD_cons, List.getD_cons_succ, List.getD_cons_zero]
    at hn hi ⊢
  have p3 := ParseUint_ok c3 32 (by decide) h3.1 h3.2 hn
  have p4 := ParseUint_range c4 32 (by decide) h4.1 h4.2 hi
  simp only [parseQuorumStatus, hm, List.getElem?_cons_succ, List.getElem?_cons_zero, p3, p4]

/-- C15: for every input in which the quorum block matches,
`parseQuorumStatus` returns an error exactly when the Nodes value is at least
2^32, or the Node ID value is at least 2^32, or the Quorate token is neither
"Yes" nor "No"; the error names the first failing field in the order Nodes
("unable to parse total nodes into uint"), Node ID ("unable to parse Node
ID"), Quorate ("unable to parse quorum status"). -/
theorem parseQuorumStatus_error_iff (s : quorumStatus) (output : Bytes)
    (h : HasMatch quorumRE output) :
    ((∃ s' e, parseQuorumStatus s output = .ret s' (some e)) ↔
      (2 ^ 32 ≤ digitsValue (firstCapture quorumRE output 3) ∨
        2 ^ 32 ≤ digitsValue (firstCapture quorumRE output 4) ∨
        (firstCapture quorumRE output 6 ≠ bs "Yes" ∧
          firstCapture quorumRE output 6 ≠ bs "No"))) ∧
    (2 ^ 32 ≤ digitsValue (firstCapture quorumRE output 3) →
      ∃ s' e, parseQuorumStatus s output =
        .ret s' (some (.wrap "unable to parse total nodes into uint" e))) ∧
    (digitsValue (firstCapture quorumRE output 3) < 2 ^ 32 →
      2 ^ 32 ≤ digitsValue (firstCapture quorumRE output 4) →
      ∃ s' e, parseQuorumStatus s output = .ret s' (some (.wrap "unable to parse Node ID" e))) ∧
    (digitsValue (firstCapture quorumRE output 3) < 2 ^ 32 →
      digitsValue (firstCapture quorumRE output 4) < 2 ^ 32 →
      firstCapture quorumRE output 6 ≠ bs "Yes" → firstCapture quorumRE output 6 ≠ bs "No" →
      ∃ s', parseQuorumStatus s output =
        .ret s' (some (.new "unable to parse quorum status"))) := by
  have hA := parseQuorumStatus_nodes_range s output h
  have hB := parseQuorumStatus_nodeId_range s output h
  have hC := parseQuorumStatus_of_match s output h
  refine ⟨⟨?_, ?_⟩, fun hn => ⟨_, _, hA hn⟩, fun hn hi => ⟨_, _, hB hn hi⟩, ?_⟩
  · rintro ⟨s', e, he⟩
    by_contra hc
    simp only [not_or, not_and_or, not_le, ne_eq, Decidable.not_not] at hc
    obtain ⟨hn, hi, htok⟩ := hc
    have hp := hC hn hi
    rcases htok with hy | hno
    · rw [if_pos hy, he] at hp; cases hp
    · have hy : firstCapture quorumRE output 6 ≠ bs "Yes" := by rw [hno]; decide
      rw [if_neg hy, if_pos hno, he] at hp; cases hp
  · intro hcases
    by_cases hn : 2 ^ 32 ≤ digitsValue (firstCapture quorumRE output 3)
    · exact ⟨_, _, hA hn⟩
    · by_cases hi : 2 ^ 32 ≤ digitsValue (firstCapture quorumRE output 4)
      · exact ⟨_, _, hB (by omega) hi⟩
      · rcases hcases with h1 | h1 | ⟨hy, hno⟩
        · exact absurd h1 hn
        · exact absurd h1 hi
        · have hp := hC (by omega) (by omega)
          rw [if_neg hy, if_neg hno] at hp
          exact ⟨_, _, hp⟩
  · intro hn hi hy hno
    have hp := hC hn hi
    rw [if_neg hy, if_neg hno] at hp
    exact ⟨_, hp⟩

/-- C15 on `sampleManyNodes`, whose Nodes value is 2^32: the error names the
total nodes. -/
theorem parseQuorumStatus_error_iff_witness :
    ∃ s' e, parseQuorumStatus quorumStatus.zero sampleManyNodes =
      .ret s' (some (.wrap "unable to parse total nodes into uint" e)) :=
  (parseQuorumStatus_error_iff quorumStatus.zero sampleManyNodes
    (hasMatch_of_find _ _ (by decide!))).2.1 (by decide!)

/-! ## The rings of parseRingStatus -/

theorem inOrder_extend (re : List Item) (b : UInt8) (t : Bytes) (ms : List (List Bytes))
    (hb : matchHere re (b :: t) = none) (h : InOrder re ms t) : InOrder re ms (b :: t) := by
  have hnone := (matchHere_eq_none_iff re (b :: t)).mp hb
  cases h with
  | done _ hno =>
    refine InOrder.done _ ?_
    rintro ⟨pre, w, post, hs, hw⟩
    cases pre with
    | nil => exact hnone ⟨w, post, by simpa using hs, hw⟩
    | cons c pre =>
      simp only [List.cons_append, List.cons.injEq] at hs
      exact hno ⟨pre, w, post, hs.2, hw⟩
  | next gap whole rest caps ms' hgap hw hne hc hrec =>
    have := InOrder.next (b :: gap) whole rest caps ms' ?_ hw hne hc hrec
    · simpa using this
    · intro g1 g2 hg hg2
      cases g1 with
      | nil =>
        simp only [List.nil_append] at hg
        subst hg
        simpa using hnone
      | cons c g1 =>
        simp only [List.cons_append, List.cons.injEq] at hg
        exact hgap g1 g2 hg.2 hg2

/-- The matches that `FindAllSubmatch` reports are the successive
non-overlapping matches of the pattern, in order of appearance. -/
theorem findAllAux_inOrder (re : List Item) (hne : ∀ w, Matches re w → w ≠ []) :
    ∀ (s : Bytes) (skip : Nat), skip ≤ s.length →
      InOrder re (findAllAux re skip s) (s.drop skip) := by
  intro s
  induction s with
  | nil =>
    intro skip hs
    have h0 : skip = 0 := by simpa using hs
    subst h0
    have hnone : matchHere re [] = none := by
      rw [matchHere_eq_none_iff]
      rintro ⟨w, post, hs, hw⟩
      have := List.append_eq_nil.mp hs.symm
      exact hne w hw this.1
    have hsub := (submatchHere_eq_none_iff re []).mpr hnone
    simp only [findAllAux, hsub, List.drop_nil]
    refine InOrder.done _ ?_
    rintro ⟨pre, w, post, hs, hw⟩
    have h1 := List.append_eq_nil.mp hs.symm
    have h2 := List.append_eq_nil.mp h1.1
    exact hne w hw h2.2
  | cons b t ih =>
    intro skip hs
    cases skip with
    | succ k =>
      simp only [findAllAux, List.drop_succ_cons]
      exact ih k (by simpa using hs)
    | zero =>
      simp only [List.drop_zero]
      cases hm : matchHere re (b :: t) with
      | none =>
        have hsub := (submatchHere_eq_none_iff re (b :: t)).mpr hm
        simp only [findAllAux, hsub]
        have := ih 0 (Nat.zero_le _)
        simp only [List.drop_zero] at this
        exact inOrder_extend re b t _ hm this
      | some y =>
        obtain ⟨caps, rest⟩ := y
        obtain ⟨w, hw, hmw, hc⟩ := matchHere_sound re (b :: t) caps rest hm
        have hwne := hne w hmw
        cases w with
        | nil => exact absurd rfl hwne
        | cons c w' =>
          simp only [List.cons_append, List.cons.injEq] at hw
          obtain ⟨hbc, ht⟩ := hw
          subst hbc
          have htake : (b :: t).take ((b :: t).length - rest.length) = b :: w' := by
            rw [ht]
            have : (b :: (w' ++ rest)).length - rest.length = (b :: w').length := by
              simp only [List.length_cons, List.length_append]; omega
            rw [this]
            exact List.take_left' rfl
          have hsub : submatchHere re (b :: t) = some ((b :: w') :: caps) := by
            simp only [submatchHere, hm, Option.map_some', htake]
          simp only [findAllAux, hsub, List.headD_cons, List.length_cons, Nat.add_sub_cancel]
          have hrec := ih w'.length (by rw [ht]; simp)
          have hdrop : t.drop w'.length = rest := by
            rw [ht]; exact List.drop_left' rfl
          rw [hdrop] at hrec
          have := InOrder.next [] (b :: w') rest caps _ ?_ hmw hwne hc hrec
          · have e : b :: t = [] ++ ((b :: w') ++ rest) := by rw [ht]; rfl
            rw [e]
            exact this
          · intro g1 g2 hg hg2
            have := List.append_eq_nil.mp hg.symm
            exact absurd this.2 hg2

theorem Matches_ringsRE_ne_nil (w : Bytes) (h : Matches ringsRE w) : w ≠ [] := by
  have e : ringsRE = Item.lit 76 :: ringsRE.tail := rfl
  rw [e] at h
  obtain ⟨u, v, rfl, hu, _⟩ := h
  have : u = [76] := hu
  rw [this]; simp

theorem FindAllSubmatch_ringsRE_inOrder (output : Bytes) :
    InOrder ringsRE (FindAllSubmatch ringsRE output) output := by
  have := findAllAux_inOrder ringsRE Matches_ringsRE_ne_nil output 0 (Nat.zero_le _)
  simpa [FindAllSubmatch] using this

/-- C16: for every input on which `parseRingStatus` succeeds, the resulting
ring list is the previous ring list followed by exactly one ringStatus per
non-overlapping match of the LINK ID block, in order of appearance in the
input, where each new element has ringId = the decimal value of the id
capture, protocol, address and status equal to the corresponding captures,
and linkCount = countLinks(status). -/
theorem parseRingStatus_rings (s s' : nodeStatus) (output : Bytes)
    (h : parseRingStatus s output = .ret s' none) :
    s'.rings = s.rings ++ (FindAllSubmatch ringsRE output).map ringOf ∧
      InOrder ringsRE (FindAllSubmatch ringsRE output) output ∧
      ∀ m ∈ FindAllSubmatch ringsRE output, ∃ whole id proto address status,
        m = [whole, id, proto, address, status] ∧
        ringOf m = { ringId := digitsValue id, protocol := proto, address := address,
                     status := status, linkCount := countLinks status } := by
  refine ⟨?_, FindAllSubmatch_ringsRE_inOrder output, ?_⟩
  · rw [parseRingStatus_ok_rings s s' output h]
  · intro m hm
    obtain ⟨whole, a, b, c, d, rfl, _⟩ := rings_match_shape output m hm
    exact ⟨whole, a, b, c, d, rfl, rfl⟩

/-- C16 on `sampleLinks`: the two links, in the order of the output. -/
theorem parseRingStatus_rings_witness :
    [{ address := bs "10.0.0.1", status := bs "n3", protocol := bs "udp", ringId := 0,
       linkCount := [1, 0, 0, 0, 0] },
     { address := bs "10.0.1.1", status := bs "31?n2", protocol := bs "udp", ringId := 1,
       linkCount := [1, 1, 1, 1, 0] }] =
        nodeStatus.zero.rings ++ (FindAllSubmatch ringsRE sampleLinks).map ringOf ∧
      InOrder ringsRE (FindAllSubmatch ringsRE sampleLinks) sampleLinks :=
  have h := parseRingStatus_rings nodeStatus.zero
    { quorum := quorumStatus.zero, votequorum := votequorumStatus.zero,
      rings :=
        [{ address := bs "10.0.0.1", status := bs "n3", protocol := bs "udp", ringId := 0,
           linkCount := [1, 0, 0, 0, 0] },
         { address := bs "10.0.1.1", status := bs "31?n2", protocol := bs "udp", ringId := 1,
           linkCount := [1, 1, 1, 1, 0] }] }
    sampleLinks (by decide!)
  ⟨h.1, h.2.1⟩

theorem parseRingStatusLoop_rings : ∀ (ms : List (List Bytes)) (s s' : nodeStatus)
    (e : Option Error), (∀ m ∈ ms, RingMatch m) → parseRingStatusLoop s ms = .ret s' e →
    ∃ k, s'.rings = s.rings ++ (ms.take k).map ringOf := by
  intro ms
  induction ms with
  | nil =>
    intro s s' e _ h
    simp only [parseRingStatusLoop, Outcome.ret.injEq] at h
    exact ⟨0, by rw [← h.1]; simp⟩
  | cons m ms ih =>
    intro s s' e hm h
    obtain ⟨whole, a, b, c, d, rfl, ha⟩ := hm _ (List.mem_cons_self _ _)
    by_cases hva : digitsValue a < 2 ^ 64
    · rw [parseRingStatusLoop_step_ok s whole a b c d ms ha hva] at h
      obtain ⟨k, hk⟩ := ih _ _ _ (fun x hx => hm x (List.mem_cons_of_mem _ hx)) h
      exact ⟨k + 1, by rw [hk]; simp⟩
    · rw [parseRingStatusLoop_step_err s whole a b c d ms ha (by omega)] at h
      simp only [Outcome.ret.injEq] at h
      exact ⟨0, by rw [← h.1]; simp⟩

/-- C18: every ringStatus that `parseRingStatus` appends has a non-empty
status string and a non-empty address and protocol, so the total that
`Gather` emits for it, len(status) - 1, is never negative. -/
theorem parseRingStatus_appended_nonempty (s s' : nodeStatus) (output : Bytes)
    (e : Option Error) (h : parseRingStatus s output = .ret s' e) :
    ∃ new, s'.rings = s.rings ++ new ∧
      ∀ r ∈ new, r.status ≠ [] ∧ r.address ≠ [] ∧ r.protocol ≠ [] ∧
        ("total", Value.int (len r.status - 1)) ∈ (ringGauge r).fields ∧
        0 ≤ len r.status - 1 := by
  obtain ⟨k, hk⟩ := parseRingStatusLoop_rings _ s s' e (rings_all_RingMatch output) h
  refine ⟨_, hk, ?_⟩
  intro r hr
  obtain ⟨m, hm, rfl⟩ := List.mem_map.mp hr
  obtain ⟨whole, a, b, c, d, rfl, _, hb, hc, hd⟩ :=
    rings_match_shape output m (List.mem_of_mem_take hm)
  refine ⟨hd.1, hc.1, hb.1, by simp [ringGauge], ?_⟩
  have : 0 < d.length := List.length_pos.mpr hd.1
  simp only [ringOf, len, List.getD_cons_succ, List.getD_cons_zero]
  omega

/-- C18 on `sampleLinksBigSecond`, where the parser stops with an error after
appending the first link. -/
theorem parseRingStatus_appended_nonempty_witness :
    ∃ new, [{ address := bs "10.0.0.1", status := bs "n3", protocol := bs "udp", ringId := 0,
              linkCount := [1, 0, 0, 0, 0] }] = nodeStatus.zero.rings ++ new ∧
      ∀ r ∈ new, r.status ≠ [] ∧ r.address ≠ [] ∧ r.protocol ≠ [] ∧
        ("total", Value.int (len r.status - 1)) ∈ (ringGauge r).fields ∧
        0 ≤ len r.status - 1 :=
  parseRingStatus_appended_nonempty nodeStatus.zero
    { quorum := quorumStatus.zero, votequorum := votequorumStatus.zero,
      rings :=
        [{ address := bs "10.0.0.1", status := bs "n3", protocol := bs "udp", ringId := 0,
           linkCount := [1, 0, 0, 0, 0] }] }
    sampleLinksBigSecond
    (some (.wrap "unable to parse Ring ID"
      (.numError "ParseUint" (bs "18446744073709551616") ErrRange)))
    (by decide!)

/-! ## The sum of the tally -/

/-- Every character is an 'n' or is counted in exactly one slot. -/
theorem count_partition (rs : List Nat) :
    rs.count 51 + rs.count 50 + rs.count 49 + rs.count 63 + rs.countP isOtherChar +
      rs.count 110 = rs.length := by
  induction rs with
  | nil => rfl
  | cons r t ih =>
    have c1 : ∀ x : Nat, (r :: t).count x = [r].count x + t.count x := fun x => by
      rw [← List.count_append]; rfl
    have c2 : (r :: t).countP isOtherChar = [r].countP isOtherChar + t.countP isOtherChar := by
      rw [← List.countP_append]; rfl
    have hone : [r].count 51 + [r].count 50 + [r].count 49 + [r].count 63 +
        [r].countP isOtherChar + [r].count 110 = 1 := by
      by_cases h3 : r = 51
      · subst h3; simp [isOtherChar]
      by_cases h2 : r = 50
      · subst h2; simp [isOtherChar]
      by_cases h1 : r = 49
      · subst h1; simp [isOtherChar]
      by_cases hq : r = 63
      · subst hq; simp [isOtherChar]
      by_cases hn : r = 110
      · subst hn; simp [isOtherChar]
      have e3 : (r == 51) = false := by simpa using h3
      have e2 : (r == 50) = false := by simpa using h2
      have e1 : (r == 49) = false := by simpa using h1
      have eq : (r == 63) = false := by simpa using hq
      have en : (r == 110) = false := by simpa using hn
      simp [isOtherChar, h3, h2, h1, hq, hn, List.count_cons, e3, e2, e1, eq, en]
    rw [c1, c1, c1, c1, c1, c2, List.length_cons]
    omega

/-- The five slots added up, for a string of fewer than 2^32 characters. -/
theorem countLinks_slots_sum (s : Bytes) (h : (runes s).length < 2 ^ 32) :
    (countLinks s).getD 0 0 + (countLinks s).getD 1 0 + (countLinks s).getD 2 0 +
        (countLinks s).getD 3 0 + (countLinks s).getD 4 0 =
      (runes s).length - (runes s).count 110 := by
  have hp := count_partition (runes s)
  have l1 := List.count_le_length 51 (runes s)
  have l2 := List.count_le_length 50 (runes s)
  have l3 := List.count_le_length 49 (runes s)
  have l4 := List.count_le_length 63 (runes s)
  have l5 := List.countP_le_length isOtherChar (l := runes s)
  rw [countLinks_closed]
  simp only [List.getD_cons_zero, List.getD_cons_succ]
  rw [Nat.mod_eq_of_lt (by omega), Nat.mod_eq_of_lt (by omega), Nat.mod_eq_of_lt (by omega),
    Nat.mod_eq_of_lt (by omega), Nat.mod_eq_of_lt (by omega)]
  omega

theorem count_map_toNat (s : Bytes) (c : UInt8) :
    (s.map UInt8.toNat).count c.toNat = s.count c := by
  induction s with
  | nil => rfl
  | cons b t ih =>
    simp only [List.map_cons, List.count_cons, ih]
    by_cases hb : b = c
    · subst hb; simp
    · have : b.toNat ≠ c.toNat := fun h => hb (UInt8.ext h)
      simp [hb, this]

theorem runes_ascii (s : Bytes) (h : ∀ b ∈ s, b.toNat < 128) : runes s = s.map UInt8.toNat :=
  runesAux_ascii s h

/-- C17 (amended): for every status string of fewer than 2^32 characters, the
five slots of `countLinks` sum to the number of characters minus the number
of 'n' characters; consequently, for every ASCII status string of fewer than
2^32 characters with exactly one 'n', the sum of the five emitted category
counts equals the emitted total len(s) - 1. -/
theorem countLinks_sum (s : Bytes) (h : (runes s).length < 2 ^ 32) :
    (countLinks s).getD 0 0 + (countLinks s).getD 1 0 + (countLinks s).getD 2 0 +
        (countLinks s).getD 3 0 + (countLinks s).getD 4 0 =
      (runes s).length - (runes s).count 110 ∧
    ((∀ b ∈ s, b.toNat < 128) → s.count 110 = 1 →
      (((countLinks s).getD 0 0 + (countLinks s).getD 1 0 + (countLinks s).getD 2 0 +
        (countLinks s).getD 3 0 + (countLinks s).getD 4 0 : Nat) : Int) = len s - 1) := by
  have hsum := countLinks_slots_sum s h
  refine ⟨hsum, fun hascii hone => ?_⟩
  rw [hsum, runes_ascii s hascii]
  have hc : (s.map UInt8.toNat).count 110 = s.count 110 := count_map_toNat s 110
  rw [hc, hone, List.length_map, len]
  have : 0 < s.length := by
    cases s with
    | nil => simp at hone
    | cons b t => simp
  omega

/-- C17 (amended) on the status "31?n2": 1 + 1 + 1 + 1 + 0 = 5 - 1. -/
theorem countLinks_sum_witness :
    (countLinks (bs "31?n2")).getD 0 0 + (countLinks (bs "31?n2")).getD 1 0 +
        (countLinks (bs "31?n2")).getD 2 0 + (countLinks (bs "31?n2")).getD 3 0 +
        (countLinks (bs "31?n2")).getD 4 0 =
      (runes (bs "31?n2")).length - (runes (bs "31?n2")).count 110 ∧
    (((countLinks (bs "31?n2")).getD 0 0 + (countLinks (bs "31?n2")).getD 1 0 +
        (countLinks (bs "31?n2")).getD 2 0 + (countLinks (bs "31?n2")).getD 3 0 +
        (countLinks (bs "31?n2")).getD 4 0 : Nat) : Int) = len (bs "31?n2") - 1 :=
  have h := countLinks_sum (bs "31?n2") (by decide)
  ⟨h.1, h.2 (by decide) (by decide)⟩

/-- The tally of a run of `n` characters '3' followed by one 'n'. -/
theorem countLinks_threes_n (n : Nat) :
    (∀ b ∈ List.replicate n (51 : UInt8) ++ [110], b.toNat < 128) ∧
    (List.replicate n (51 : UInt8) ++ [110]).count 110 = 1 ∧
    countLinks (List.replicate n 51 ++ [110]) = [n % 2 ^ 32, 0, 0, 0, 0] ∧
    (runes (List.replicate n 51 ++ [110])).length -
      (runes (List.replicate n 51 ++ [110])).count 110 = n ∧
    len (List.replicate n 51 ++ [110]) - 1 = (n : Int) := by
  have hascii : ∀ b ∈ List.replicate n (51 : UInt8) ++ [110], b.toNat < 128 := by
    intro b hb
    rcases List.mem_append.mp hb with hb | hb
    · rw [List.eq_of_mem_replicate hb]; decide
    · rw [List.mem_singleton.mp hb]; decide
  have h51 : (51 : UInt8).toNat = 51 := by decide
  have h110 : (110 : UInt8).toNat = 110 := by decide
  have hr : runes (List.replicate n (51 : UInt8) ++ [110]) =
      List.replicate n 51 ++ [110] := by
    rw [runes_ascii _ hascii, List.map_append, List.map_replicate, h51]
    simp [h110]
  refine ⟨hascii, ?_, ?_, ?_, ?_⟩
  · rw [List.count_append, List.count_replicate]
    simp
  · rw [countLinks_closed, hr]
    simp only [List.count_append, List.countP_append, List.count_replicate,
      List.countP_replicate]
    simp [isOtherChar]
  · rw [hr]
    simp only [List.count_append, List.count_replicate, List.length_append,
      List.length_replicate]
    simp
  · simp [len]

/-- C17 (as stated) fails: on the ASCII status made of 2^32 characters '3'
and one 'n' the five slots sum to 0, while the characters that are not 'n'
number 2^32 and the emitted total is 2^32. -/
theorem countLinks_sum_wraps :
    (∀ b ∈ List.replicate 4294967296 (51 : UInt8) ++ [110], b.toNat < 128) ∧
    (List.replicate 4294967296 (51 : UInt8) ++ [110]).count 110 = 1 ∧
    countLinks (List.replicate 4294967296 51 ++ [110]) = [0, 0, 0, 0, 0] ∧
    (runes (List.replicate 4294967296 51 ++ [110])).length -
      (runes (List.replicate 4294967296 51 ++ [110])).count 110 = 4294967296 ∧
    len (List.replicate 4294967296 51 ++ [110]) - 1 = 4294967296 := by
  obtain ⟨h1, h2, h3, h4, h5⟩ := countLinks_threes_n 4294967296
  exact ⟨h1, h2, h3, h4, h5⟩

/-! ## The receiver of parseVotequorumInfo -/

/-- C19: `parseVotequorumInfo` writes to its receiver only on success: for
every input on which it returns an error, all five fields of the
votequorumStatus (totalVotes, expectedVotes, highestExpected, quorum, flags)
are unchanged from before the call. -/
theorem parseVotequorumInfo_error_frame (s s' : votequorumStatus) (output : Bytes) (e : Error)
    (h : parseVotequorumInfo s output = .ret s' (some e)) :
    s'.totalVotes = s.totalVotes ∧ s'.expectedVotes = s.expectedVotes ∧
      s'.highestExpected = s.highestExpected ∧ s'.quorum = s.quorum ∧ s'.flags = s.flags := by
  have hs : s' = s := by
    unfold parseVotequorumInfo at h
    cases h0 : (FindAllSubmatch voteqorumInfoRE output)[0]? with
    | none => rw [h0] at h; cases h
    | some m0 =>
      rw [h0] at h
      simp only at h
      cases h1 : m0[1]? with
      | none => rw [h1] at h; cases h
      | some c1 =>
        rw [h1] at h
        simp only at h
        cases p1 : ParseUint c1 32 with
        | error err => rw [p1] at h; simp only [Outcome.ret.injEq] at h; exact h.1.symm
        | ok expected =>
          rw [p1] at h
          simp only at h
          cases h2 : m0[2]? with
          | none => rw [h2] at h; cases h
          | some c2 =>
            rw [h2] at h
            simp only at h
            cases p2 : ParseUint c2 32 with
            | error err => rw [p2] at h; simp only [Outcome.ret.injEq] at h; exact h.1.symm
            | ok highest =>
              rw [p2] at h
              simp only at h
              cases h3 : m0[3]? with
              | none => rw [h3] at h; cases h
              | some c3 =>
                rw [h3] at h
                simp only at h
                cases p3 : ParseUint c3 32 with
                | error err => rw [p3] at h; simp only [Outcome.ret.injEq] at h; exact h.1.symm
                | ok total =>
                  rw [p3] at h
                  simp only at h
                  cases h4 : m0[4]? with
                  | none => rw [h4] at h; cases h
                  | some c4 =>
                    rw [h4] at h
                    simp only at h
                    cases p4 : ParseUint c4 32 with
                    | error err =>
                      rw [p4] at h; simp only [Outcome.ret.injEq] at h; exact h.1.symm
                    | ok quorum =>
                      rw [p4] at h
                      simp only at h
                      cases h5 : m0[5]? with
                      | none => rw [h5] at h; cases h
                      | some c5 =>
                        rw [h5] at h
                        simp only [Outcome.ret.injEq] at h
                        exact absurd h.2 (by simp)
  rw [hs]
  exact ⟨rfl, rfl, rfl, rfl, rfl⟩

/-- C19 on `sampleManyVotes`, whose Total votes value is 2^32, from a
receiver that already holds values: an error is returned and the five fields
are what they were. -/
theorem parseVotequorumInfo_error_frame_witness :
    ∃ s', parseVotequorumInfo
          { totalVotes := 7, expectedVotes := 8, highestExpected := 9, quorum := 5,
            flags := [bs "Quorate"] } sampleManyVotes =
        .ret s' (some (.wrap "unable to parse total votes into uint"
          (.numError "ParseUint" (bs "4294967296") ErrRange))) ∧
      s'.totalVotes = 7 ∧ s'.expectedVotes = 8 ∧ s'.highestExpected = 9 ∧ s'.quorum = 5 ∧
      s'.flags = [bs "Quorate"] :=
  ⟨{ totalVotes := 7, expectedVotes := 8, highestExpected := 9, quorum := 5,
     flags := [bs "Quorate"] },
    by decide!,
    parseVotequorumInfo_error_frame
      { totalVotes := 7, expectedVotes := 8, highestExpected := 9, quorum := 5,
        flags := [bs "Quorate"] }
      { totalVotes := 7, expectedVotes := 8, highestExpected := 9, quorum := 5,
        flags := [bs "Quorate"] }
      sampleManyVotes
      (.wrap "unable to parse total votes into uint"
        (.numError "ParseUint" (bs "4294967296") ErrRange))
      (by decide!)⟩

end Corosync
